import Mathlib

/-!
# Verification of the Floating Sandbox electrical-network propagation engine

Shallow embedding of the electrical subsystem of the repository:

* `SequenceNumber` and its increment (src/GameCore/GameTypes.h);
* the electrical-element state (`ElecState`) with its conductivity graph,
  visit stamps and generator state (src/Game/ElectricalElements.cpp);
* `internalSetSwitchState` (ElectricalElements::InternalSetSwitchState);
* `updateAutomaticConductivityToggles` (water-sensing switches);
* `updateSourcesAndPropagation` (generation-stamped BFS flood);
* `runLampStateMachine` (lamp finite-state machine);
* `findFreeEphemeralParticle` (src/GameLib/Points.cpp, ephemeral slot
  allocator).

Machine floats are modelled as rationals, machine 32-bit integers as
naturals reduced mod 2^32 where overflow matters, and the randomized
draws (uniform choice, uniform real) are passed in as explicit inputs.
-/

namespace FloatingSandbox

/-- Pointwise update of a buffer modelled as a function. -/
def updFn {α : Type} (f : ℕ → α) (x : ℕ) (a : α) : ℕ → α :=
  fun y => if y = x then a else f y

/-! ## SequenceNumber (src/GameCore/GameTypes.h)

`mValue` is a `std::uint32_t`; the C++ pre-increment wraps around mod `2^32`
and skips the reserved value `0`. -/

/-- `SequenceNumber` from GameTypes.h: a 32-bit sequence value,
`0` reserved to mean "never". -/
structure SequenceNumber where
  mValue : ℕ
  deriving Repr, DecidableEq

namespace SequenceNumber

/-- `SequenceNumber::None()`: the reserved zero value. -/
def none : SequenceNumber := ⟨0⟩

/-- `SequenceNumber::operator++`: increment the underlying `uint32_t`
(wrapping mod `2^32`), then skip `0`. -/
def inc (s : SequenceNumber) : SequenceNumber :=
  let v := (s.mValue + 1) % 2 ^ 32
  if v = 0 then ⟨1⟩ else ⟨v⟩

end SequenceNumber

/-! ## Electrical elements state (src/Game/ElectricalElements.cpp)

The per-element buffers of `ElectricalElements`, restricted to the fields
read or written by the operations under verification.  Buffers are modelled
as total functions from element indices; `count` is the populated size. -/

/-- Notifications raised through the game event handler. -/
inductive ElecEvent : Type
  | powerProbeToggled (element : ℕ) (newState : Bool)
  | switchToggled (element : ℕ) (newState : Bool)
  | lightFlicker (isLong : Bool)
  deriving Repr, DecidableEq

/-- The state of `ElectricalElements` (element buffers). -/
structure ElecState where
  /-- number of elements (`GetCurrentPopulatedSize`) -/
  count : ℕ
  /-- `mIsDeletedBuffer` -/
  isDeleted : ℕ → Bool
  /-- `mConductivityBuffer[...].ConductsElectricity` -/
  conductsElectricity : ℕ → Bool
  /-- `mConductivityBuffer[...].MaterialConductsElectricity` -/
  materialConductsElectricity : ℕ → Bool
  /-- `mConnectedElectricalElementsBuffer` -/
  connectedElectricalElements : ℕ → List ℕ
  /-- `mConductingConnectedElectricalElementsBuffer` -/
  conductingConnectedElectricalElements : ℕ → List ℕ
  /-- `mCurrentConnectivityVisitSequenceNumberBuffer` (sequence values as `ℕ`) -/
  currentConnectivityVisitSequenceNumber : ℕ → ℕ
  /-- `mElementStateBuffer[...].Generator.IsProducingCurrent` -/
  generatorIsProducingCurrent : ℕ → Bool
  /-- `mPointIndexBuffer` (host particle of each element) -/
  pointIndex : ℕ → ℕ
  /-- `mMaterialHeatGeneratedBuffer` -/
  materialHeatGenerated : ℕ → ℚ
  /-- `mMaterialOperatingTemperaturesBuffer` minimum -/
  materialOperatingTemperatureMin : ℕ → ℚ
  /-- `mMaterialOperatingTemperaturesBuffer` maximum -/
  materialOperatingTemperatureMax : ℕ → ℚ
  /-- `mInstanceInfos[...].InstanceIndex` (`Option.none` = `NoneElectricalElementInstanceIndex`) -/
  instanceIndex : ℕ → Option ℕ
  /-- `mSources` -/
  sources : List ℕ
  /-- `mAutomaticConductivityTogglingElements` -/
  automaticConductivityTogglingElements : List ℕ
  /-- `mHasSwitchBeenToggledInStep` -/
  hasSwitchBeenToggledInStep : Bool

/-- The particle state read and written by the electrical subsystem
(`Points` collaborator): per-particle water, temperature, and the heat
accumulated through `AddHeat`. -/
structure PointsState where
  water : ℕ → ℚ
  temperature : ℕ → ℚ
  heat : ℕ → ℚ

/-- Modelled from the spec: `Points::IsWet(index, threshold)` (declared in the
Points header, which is not part of the sources here) — the particle is wet
when its water fraction exceeds the threshold. -/
def PointsState.isWet (pts : PointsState) (p : ℕ) (threshold : ℚ) : Bool :=
  pts.water p > threshold

/-- Modelled from the spec: `AddHeat` applies a thermal side effect at a
particle; we record the accumulated amount. -/
def PointsState.addHeat (pts : PointsState) (p : ℕ) (q : ℚ) : PointsState :=
  { pts with heat := updFn pts.heat p (pts.heat p + q) }

/-- Modelled from the spec: the operating-temperature range test
(`IsInRange` on `mMaterialOperatingTemperaturesBuffer`): temperature within
the material's operating range. -/
def ElecState.temperatureIsInRange (st : ElecState) (e : ℕ) (t : ℚ) : Bool :=
  st.materialOperatingTemperatureMin e ≤ t ∧ t ≤ st.materialOperatingTemperatureMax e

/-- Modelled from the spec: `IsBackInRange` — temperature back within the
material's operating range (used for the hysteretic turn-back-on tests). -/
def ElecState.temperatureIsBackInRange (st : ElecState) (e : ℕ) (t : ℚ) : Bool :=
  st.materialOperatingTemperatureMin e ≤ t ∧ t ≤ st.materialOperatingTemperatureMax e

/-! ## InternalSetSwitchState (ElectricalElements.cpp lines 762-834) -/

/-- Conduct-connect `other` and `e` to each other (the two mutual
`push_back`s of the OFF→ON branch). -/
def ccPush (cc : ℕ → List ℕ) (e other : ℕ) : ℕ → List ℕ :=
  updFn (updFn cc e (cc e ++ [other])) other ((updFn cc e (cc e ++ [other])) other ++ [e])

/-- Sever the conduct-connection between `e` and `other` (the two mutual
`erase_first`s of the ON→OFF branch; `List.erase` removes the first
occurrence, as `erase_first` does). -/
def ccErase (cc : ℕ → List ℕ) (e other : ℕ) : ℕ → List ℕ :=
  updFn (updFn cc e ((cc e).erase other)) other (((updFn cc e ((cc e).erase other)) other).erase e)

/-- One iteration of the OFF→ON loop of `InternalSetSwitchState`: if the
other element conducts electricity, conduct-connect the two elements to
each other. -/
def conductConnectStep (elementIndex : ℕ) (s : ElecState) (otherElementIndex : ℕ) :
    ElecState :=
  if s.conductsElectricity otherElementIndex then
    let cc := ccPush s.conductingConnectedElectricalElements elementIndex otherElementIndex
    { s with conductingConnectedElectricalElements := cc }
  else s

/-- One iteration of the ON→OFF loop of `InternalSetSwitchState`: if the
other element conducts electricity, sever the conduct-connection between
the two elements. -/
def conductSeverStep (elementIndex : ℕ) (s : ElecState) (otherElementIndex : ℕ) :
    ElecState :=
  if s.conductsElectricity otherElementIndex then
    let cc := ccErase s.conductingConnectedElectricalElements elementIndex otherElementIndex
    { s with conductingConnectedElectricalElements := cc }
  else s

/-- `ElectricalElements::InternalSetSwitchState`: no-op when the state is
unchanged; otherwise flip `ConductsElectricity`, incrementally maintain the
conducting-connectivity lists over the element's neighbors, raise the
"switch toggled" notification and set the per-step toggle flag. -/
def internalSetSwitchState (elementIndex : ℕ) (switchState : Bool)
    (st : ElecState) : ElecState × List ElecEvent :=
  if switchState = st.conductsElectricity elementIndex then (st, [])
  else
    let st1 : ElecState :=
      { st with conductsElectricity := updFn st.conductsElectricity elementIndex switchState }
    let st2 : ElecState :=
      if switchState then
        -- OFF->ON: conduct-connect to every conducting neighbor
        (st.connectedElectricalElements elementIndex).foldl
          (conductConnectStep elementIndex) st1
      else
        -- ON->OFF: sever conduct-connection to every conducting neighbor
        (st.connectedElectricalElements elementIndex).foldl
          (conductSeverStep elementIndex) st1
    ({ st2 with hasSwitchBeenToggledInStep := true },
      [ElecEvent.switchToggled elementIndex switchState])

/-- Well-formedness of the conductivity graph: the neighbor lists are
symmetric, duplicate-free and irreflexive (established by hull
construction), and the conducting-connectivity lists are exactly the
mutually-conducting neighbor pairs (spec invariants I1/I3 together with the
completeness relied upon by the assertions of `InternalSetSwitchState`). -/
structure ElecWf (st : ElecState) : Prop where
  conn_sym : ∀ a b, a ∈ st.connectedElectricalElements b ↔ b ∈ st.connectedElectricalElements a
  conn_nodup : ∀ a, (st.connectedElectricalElements a).Nodup
  conn_irrefl : ∀ a, a ∉ st.connectedElectricalElements a
  cc_char : ∀ a b, b ∈ st.conductingConnectedElectricalElements a ↔
    (b ∈ st.connectedElectricalElements a
      ∧ st.conductsElectricity a = true ∧ st.conductsElectricity b = true)
  cc_nodup : ∀ a, (st.conductingConnectedElectricalElements a).Nodup

/-! ## UpdateAutomaticConductivityToggles (ElectricalElements.cpp lines 328-382) -/

/-- `WaterLowWatermark` (0.15f). -/
def waterLowWatermark : ℚ := mkRat 15 100

/-- `WaterHighWatermark` (0.45f). -/
def waterHighWatermark : ℚ := mkRat 45 100

/-- One iteration of `UpdateAutomaticConductivityToggles`, for a
water-sensing switch element: skip deleted elements; when conductivity
matches the material default and water is at or above the high watermark,
flip to the inverse of the default; when inverted and water is at or below
the low watermark, flip back.  Both flips go through
`internalSetSwitchState`. -/
def autoConductivityStep (pts : PointsState) (acc : ElecState × List ElecEvent)
    (elementIndex : ℕ) : ElecState × List ElecEvent :=
  if acc.1.isDeleted elementIndex then acc
  else
    if acc.1.conductsElectricity elementIndex
          = acc.1.materialConductsElectricity elementIndex
        ∧ pts.water (acc.1.pointIndex elementIndex) ≥ waterHighWatermark then
      let r := internalSetSwitchState elementIndex
        (!(acc.1.materialConductsElectricity elementIndex)) acc.1
      (r.1, acc.2 ++ r.2)
    else if acc.1.conductsElectricity elementIndex
          ≠ acc.1.materialConductsElectricity elementIndex
        ∧ pts.water (acc.1.pointIndex elementIndex) ≤ waterLowWatermark then
      let r := internalSetSwitchState elementIndex
        (acc.1.materialConductsElectricity elementIndex) acc.1
      (r.1, acc.2 ++ r.2)
    else acc

/-- `ElectricalElements::UpdateAutomaticConductivityToggles`: visit all
non-deleted automatically-toggling elements and apply the hysteretic
water-level toggle. -/
def updateAutomaticConductivityToggles (st : ElecState) (pts : PointsState) :
    ElecState × List ElecEvent :=
  st.automaticConductivityTogglingElements.foldl (autoConductivityStep pts) (st, [])

/-! ## UpdateSourcesAndPropagation (ElectricalElements.cpp lines 384-540) -/

/-- Parameters of the propagation pass (`GameParameters` fields read by it). -/
structure PropParams where
  electricalElementHeatProducedAdjustment : ℚ
  doShowElectricalNotifications : Bool

/-- Modelled from the spec: `GameParameters::SimulationStepTimeDuration`
(declared in GameParameters.h, not among the sources); a fixed step
duration. -/
def simulationStepTimeDuration : ℚ := mkRat 1 64

/-- The BFS flood of `UpdateSourcesAndPropagation`: pop an element from the
queue, and for every conducting-connected neighbor not yet carrying the new
generation stamp, stamp it and enqueue it.  `fuel` bounds the number of
loop iterations (the C++ `while` terminates because every enqueue stamps a
previously-unstamped element). -/
def floodLoop (g : ℕ) (cc : ℕ → List ℕ) :
    ℕ → List ℕ → (ℕ → ℕ) → (ℕ → ℕ)
  | 0, _, stamp => stamp
  | _ + 1, [], stamp => stamp
  | fuel + 1, e :: rest, stamp =>
    let next := (cc e).foldl
      (fun (acc : List ℕ × (ℕ → ℕ)) w =>
        if acc.2 w ≠ g then (acc.1 ++ [w], updFn acc.2 w g) else acc)
      (rest, stamp)
    floodLoop g cc fuel next.1 next.2

/-- The generator branch of the precondition switch in
`UpdateSourcesAndPropagation`: to keep producing, the host particle must
not be too wet and the temperature must stay in the operating range; to
resume producing it must be dry and the temperature back in range. -/
def evaluateGeneratorPreconditions (st1 : ElecState) (pts : PointsState)
    (sourceElementIndex sourcePointIndex : ℕ) : Bool :=
  if st1.generatorIsProducingCurrent sourceElementIndex then
    if pts.isWet sourcePointIndex (mkRat 3 10)
        ∨ ¬ st1.temperatureIsInRange sourceElementIndex
            (pts.temperature sourcePointIndex) then
      false
    else
      true
  else
    if ¬ pts.isWet sourcePointIndex (mkRat 3 10)
        ∧ st1.temperatureIsBackInRange sourceElementIndex
            (pts.temperature sourcePointIndex) then
      true
    else
      false

/-- One iteration of the source loop of `UpdateSourcesAndPropagation`:
skip deleted or already-visited sources; otherwise stamp the source,
evaluate the generator's producing-current preconditions (recording a state
change and its "power probe toggled" notification when instanced), and if
producing, flood the conductivity graph from the source and generate heat
at the source's host particle. -/
def processSource (g : ℕ) (params : PropParams)
    (acc : ElecState × PointsState × List ElecEvent) (sourceElementIndex : ℕ) :
    ElecState × PointsState × List ElecEvent :=
  let st := acc.1
  let pts := acc.2.1
  let evs := acc.2.2
  if st.isDeleted sourceElementIndex then acc
  else if g = st.currentConnectivityVisitSequenceNumber sourceElementIndex then acc
  else
    -- Mark it as visited
    let stamp1 := updFn st.currentConnectivityVisitSequenceNumber sourceElementIndex g
    let st1 : ElecState := { st with currentConnectivityVisitSequenceNumber := stamp1 }
    let sourcePointIndex := st1.pointIndex sourceElementIndex
    let isProducingCurrent : Bool :=
      evaluateGeneratorPreconditions st1 pts sourceElementIndex sourcePointIndex
    -- State change of the producing-current flag
    let st2 : ElecState :=
      if st1.generatorIsProducingCurrent sourceElementIndex ≠ isProducingCurrent then
        let flags := updFn st1.generatorIsProducingCurrent sourceElementIndex isProducingCurrent
        { st1 with generatorIsProducingCurrent := flags }
      else st1
    let evs1 : List ElecEvent :=
      if st1.generatorIsProducingCurrent sourceElementIndex ≠ isProducingCurrent
          ∧ st1.instanceIndex sourceElementIndex ≠ Option.none then
        evs ++ [ElecEvent.powerProbeToggled sourceElementIndex isProducingCurrent]
      else evs
    if isProducingCurrent then
      -- Flood graph from this source, then generate heat
      let stamp2 := floodLoop g st2.conductingConnectedElectricalElements (2 * st2.count + 1)
        [sourceElementIndex] st2.currentConnectivityVisitSequenceNumber
      let st3 : ElecState := { st2 with currentConnectivityVisitSequenceNumber := stamp2 }
      let pts1 := pts.addHeat sourcePointIndex
        (st3.materialHeatGenerated sourceElementIndex
          * params.electricalElementHeatProducedAdjustment
          * simulationStepTimeDuration)
      (st3, pts1, evs1)
    else
      (st2, pts, evs1)

/-- `ElectricalElements::UpdateSourcesAndPropagation`: visit the electrical
graph starting from each non-deleted source and propagate connectivity by
means of the visit sequence number. -/
def updateSourcesAndPropagation (g : ℕ) (st : ElecState) (pts : PointsState)
    (params : PropParams) : ElecState × PointsState × List ElecEvent :=
  st.sources.foldl (processSource g params) (st, pts, [])

/-- States reachable by the subsystem's operations.  The base case is the
ship-build-time state; its conductivity population is modelled from the
spec (the build code is outside the sources here): neighbor lists are
symmetric, and `ConductingNeighbors` is exactly the mutually-conducting
subset of `Neighbors`. -/
inductive ElecReachable : ElecState → Prop
  | init (st : ElecState) : ElecWf st → ElecReachable st
  | setSwitchState (st : ElecState) (e : ℕ) (b : Bool) :
      ElecReachable st → ElecReachable (internalSetSwitchState e b st).1
  | autoToggles (st : ElecState) (pts : PointsState) :
      ElecReachable st → ElecReachable (updateAutomaticConductivityToggles st pts).1
  | propagate (g : ℕ) (st : ElecState) (pts : PointsState) (params : PropParams) :
      ElecReachable st → ElecReachable (updateSourcesAndPropagation g st pts params).1

/-- Paths in a conducting-connectivity adjacency: `ReachVia cc a L b` holds
when `L` lists the successive vertices after `a` on a path of conducting
edges from `a` to `b`. -/
inductive ReachVia (cc : ℕ → List ℕ) : ℕ → List ℕ → ℕ → Prop
  | refl (a : ℕ) : ReachVia cc a [] a
  | cons {a b c : ℕ} {L : List ℕ} : b ∈ cc a → ReachVia cc b L c →
      ReachVia cc a (b :: L) c

/-- Conducting-connectivity: `b` lies at the end of some path of conducting
edges starting at `a` (reflexively). -/
def Reach (cc : ℕ → List ℕ) (a b : ℕ) : Prop :=
  ∃ L, ReachVia cc a L b

/-- The number of elements of the index range `[0, n)` not carrying the
generation stamp `g` (the termination measure of the BFS flood). -/
def unstamped (g n : ℕ) (stamp : ℕ → ℕ) : ℕ :=
  ((Finset.range n).filter (fun v => stamp v ≠ g)).card

/-! ## RunLampStateMachine (ElectricalElements.cpp lines 836-1091) -/

/-- `ElementState::LampState::StateType`. -/
inductive LampStateType : Type
  | Initial | LightOn | FlickerA | FlickerB | LightOff
  deriving Repr, DecidableEq

/-- `ElementState::LampState` (the lamp's mutable state). -/
structure LampState where
  isSelfPowered : Bool
  wetFailureRateCdf : ℚ
  state : LampStateType
  flickerCounter : ℕ
  nextStateTransitionTimePoint : ℚ
  nextWetFailureCheckTimePoint : ℚ
  deriving Repr, DecidableEq

/-- `LampWetFailureWaterThreshold` (0.1f, ElectricalElements.cpp line 14). -/
def lampWetFailureWaterThreshold : ℚ := mkRat 1 10

/-- Modelled from the spec: `ElementState::LampState::FlickerStartInterval`
(declared in the Physics header, not among the sources) — the fixed delay
before the first flicker beat. -/
def flickerStartInterval : ℚ := mkRat 1 10

/-- Modelled from the spec: `ElementState::LampState::FlickerAInterval`
(fixed beat interval of the A pattern). -/
def flickerAInterval : ℚ := mkRat 1 5

/-- Modelled from the spec: `ElementState::LampState::FlickerBInterval`
(fixed beat interval of the B pattern). -/
def flickerBInterval : ℚ := mkRat 1 5

/-- `ElectricalElements::CheckWetFailureTime`: at most once per wall-clock
second, sample the uniform draw against the lamp's wet-failure CDF and
schedule the next check. -/
def checkWetFailureTime (lamp : LampState) (currentWallclockTime : ℚ)
    (wetFailureDraw : ℚ) : Bool × LampState :=
  if currentWallclockTime ≥ lamp.nextWetFailureCheckTimePoint then
    (wetFailureDraw < lamp.wetFailureRateCdf,
      { lamp with nextWetFailureCheckTimePoint := currentWallclockTime + 1 })
  else
    (false, lamp)

/-- `ElectricalElements::RunLampStateMachine`, for one lamp element.  The
buffer cells the C++ reads and writes for this lamp are passed and returned
explicitly: the lamp type-state, the lamp's available light, its visit
stamp versus the engine's current generation, the host particle's water and
temperature, and the per-step switch-toggle flag.  The randomized draws
(`Choose(2)` for the flicker-pattern choice, `GenerateNormalizedUniformReal`
for the wet-failure check) are explicit inputs. -/
def runLampStateMachine
    (currentWallclockTime : ℚ)
    (currentConnectivityVisitSequenceNumber : ℕ)
    (lampVisitStamp : ℕ)
    (lamp : LampState)
    (availableLight : ℚ)
    (waterAtPoint temperatureAtPoint : ℚ)
    (operatingTemperatureMin operatingTemperatureMax : ℚ)
    (hasSwitchBeenToggledInStep : Bool)
    (isUnderwater : Bool)
    (flickerChoice : ℕ)
    (wetFailureDraw : ℚ) : LampState × ℚ × List ElecEvent :=
  let inRange : Bool :=
    operatingTemperatureMin ≤ temperatureAtPoint
      ∧ temperatureAtPoint ≤ operatingTemperatureMax
  let backInRange : Bool := inRange
  let isWet : Bool := waterAtPoint > lampWetFailureWaterThreshold
  match lamp.state with
  | LampStateType.Initial =>
    -- Transition to ON if current or self-powered, and within operating temperature
    if (currentConnectivityVisitSequenceNumber = lampVisitStamp ∨ lamp.isSelfPowered)
        ∧ inRange = true then
      let lamp1 : LampState :=
        { lamp with
            state := LampStateType.LightOn,
            nextWetFailureCheckTimePoint := currentWallclockTime + 1 }
      (lamp1, 1, [])
    else
      ({ lamp with state := LampStateType.LightOff }, 0, [])
  | LampStateType.LightOn =>
    -- Lost current (unless self-powered)?  The || chain is evaluated lazily:
    -- the wet-failure check (with its side effects) only runs when the first
    -- disjunct is false.
    if currentConnectivityVisitSequenceNumber ≠ lampVisitStamp
        ∧ lamp.isSelfPowered = false then
      lampTurnOff lamp currentWallclockTime hasSwitchBeenToggledInStep flickerChoice
    else
      let checked : Bool × LampState :=
        if isWet then checkWetFailureTime lamp currentWallclockTime wetFailureDraw
        else (false, lamp)
      if checked.1 = true ∨ inRange = false then
        lampTurnOff checked.2 currentWallclockTime hasSwitchBeenToggledInStep flickerChoice
      else
        (checked.2, availableLight, [])
  | LampStateType.FlickerA =>
    -- 0-1-0-1-Off
    if (currentConnectivityVisitSequenceNumber = lampVisitStamp ∨ lamp.isSelfPowered)
        ∧ isWet = false ∧ backInRange = true then
      ({ lamp with state := LampStateType.LightOn }, 1, [])
    else if currentWallclockTime > lamp.nextStateTransitionTimePoint then
      let c := lamp.flickerCounter + 1
      if c = 1 ∨ c = 3 then
        let lamp1 : LampState :=
          { lamp with
              flickerCounter := c,
              nextStateTransitionTimePoint := currentWallclockTime + flickerAInterval }
        (lamp1, 1, [ElecEvent.lightFlicker false])
      else if c = 2 then
        let lamp1 : LampState :=
          { lamp with
              flickerCounter := c,
              nextStateTransitionTimePoint := currentWallclockTime + flickerAInterval }
        (lamp1, 0, [])
      else
        ({ lamp with flickerCounter := c, state := LampStateType.LightOff }, 0, [])
    else
      (lamp, availableLight, [])
  | LampStateType.FlickerB =>
    -- 0-1-0-1--0-1-Off
    if (currentConnectivityVisitSequenceNumber = lampVisitStamp ∨ lamp.isSelfPowered)
        ∧ isWet = false ∧ backInRange = true then
      ({ lamp with state := LampStateType.LightOn }, 1, [])
    else if currentWallclockTime > lamp.nextStateTransitionTimePoint then
      let c := lamp.flickerCounter + 1
      if c = 1 ∨ c = 5 then
        let lamp1 : LampState :=
          { lamp with
              flickerCounter := c,
              nextStateTransitionTimePoint := currentWallclockTime + flickerBInterval }
        (lamp1, 1, [ElecEvent.lightFlicker false])
      else if c = 2 ∨ c = 4 then
        let lamp1 : LampState :=
          { lamp with
              flickerCounter := c,
              nextStateTransitionTimePoint := currentWallclockTime + flickerBInterval }
        (lamp1, 0, [])
      else if c = 3 then
        let lamp1 : LampState :=
          { lamp with
              flickerCounter := c,
              nextStateTransitionTimePoint := currentWallclockTime + 2 * flickerBInterval }
        (lamp1, 1, [ElecEvent.lightFlicker true])
      else
        ({ lamp with flickerCounter := c, state := LampStateType.LightOff }, 0, [])
    else
      (lamp, availableLight, [])
  | LampStateType.LightOff =>
    if (currentConnectivityVisitSequenceNumber = lampVisitStamp ∨ lamp.isSelfPowered)
        ∧ isWet = false ∧ backInRange = true then
      ({ lamp with state := LampStateType.LightOn }, 1, [ElecEvent.lightFlicker false])
    else
      (lamp, availableLight, [])
where
  /-- The common turn-off tail of the `LightOn` case: zero the light, then
  either turn off gracefully (a switch was toggled this step) or start the
  flicker state machine, choosing pattern A or B by the uniform draw. -/
  lampTurnOff (l : LampState) (now : ℚ) (toggled : Bool) (choice : ℕ) :
      LampState × ℚ × List ElecEvent :=
    if toggled then
      ({ l with state := LampStateType.LightOff }, 0, [])
    else
      let l1 : LampState :=
        { l with
            flickerCounter := 0,
            nextStateTransitionTimePoint := now + flickerStartInterval,
            state := if choice = 0 then LampStateType.FlickerA else LampStateType.FlickerB }
      (l1, 0, [])

/-! ## FindFreeEphemeralParticle (src/GameLib/Points.cpp lines 500-559) -/

/-- `EphemeralType` (None | Debris | Sparkle | Smoke). -/
inductive EphemeralType : Type
  | none | debris | sparkle | smoke
  deriving Repr, DecidableEq

/-- The `Points` buffers involved in ephemeral-slot allocation: the
ephemeral region is the index range
`[shipPointCount, allPointCount)`. -/
structure EphPoints where
  shipPointCount : ℕ
  allPointCount : ℕ
  ephemeralType : ℕ → EphemeralType
  ephemeralStartTime : ℕ → ℚ
  freeEphemeralParticleSearchStartIndex : ℕ

/-- Advance an index past `p`, wrapping at the region end
(`if (x >= mAllPointCount) x = mShipPointCount`). -/
def EphPoints.wrapNext (st : EphPoints) (p : ℕ) : ℕ :=
  if p + 1 ≥ st.allPointCount then st.shipPointCount else p + 1

/-- The circular scan loop of `Points::FindFreeEphemeralParticle`: starting
at `p`, return the first slot whose ephemeral type is `None`; while
scanning, track the slot with the greatest `currentTime − StartTime`
(ties resolved to the later-scanned slot by the `>=` comparison); stop when
the scan would return to the search start.  Returns `(some free slot, _)`
or `(none, oldest tracked slot)`. -/
def findFreeLoop (st : EphPoints) (currentSimulationTime : ℚ) :
    ℕ → ℕ → Option ℕ → ℚ → Option ℕ × Option ℕ
  | 0, _, oldestParticle, _ => (Option.none, oldestParticle)
  | fuel + 1, p, oldestParticle, oldestParticleLifetime =>
    if st.ephemeralType p = EphemeralType.none then (Option.some p, oldestParticle)
    else
      let lifetime := currentSimulationTime - st.ephemeralStartTime p
      let tracked : Option ℕ × ℚ :=
        if lifetime ≥ oldestParticleLifetime then (Option.some p, lifetime)
        else (oldestParticle, oldestParticleLifetime)
      let p' := st.wrapNext p
      if p' = st.freeEphemeralParticleSearchStartIndex then (Option.none, tracked.1)
      else findFreeLoop st currentSimulationTime fuel p' tracked.1 tracked.2

/-- `Points::FindFreeEphemeralParticle`: scan for the first free ephemeral
slot from the search cursor; if none is found in a full circular scan,
steal the oldest slot.  Either way the cursor is advanced past the returned
slot, wrapping at the region end. -/
def findFreeEphemeralParticle (st : EphPoints) (currentSimulationTime : ℚ) :
    ℕ × EphPoints :=
  match findFreeLoop st currentSimulationTime (st.allPointCount - st.shipPointCount)
      st.freeEphemeralParticleSearchStartIndex Option.none 0 with
  | (Option.some p, _) =>
    (p, { st with freeEphemeralParticleSearchStartIndex := st.wrapNext p })
  | (Option.none, oldestParticle) =>
    let op := oldestParticle.getD 0
    (op, { st with freeEphemeralParticleSearchStartIndex := st.wrapNext op })

/-- The circular scan of `findFreeLoop`, re-expressed over the explicit list
of visited slot positions (used to reason about the loop; `findFreeLoop`
over a full wrap is proved equal to `scanFind` over the rotation of the
region starting at the cursor). -/
def scanFind (st : EphPoints) (currentSimulationTime : ℚ) :
    List ℕ → Option ℕ → ℚ → Option ℕ × Option ℕ
  | [], oldestParticle, _ => (Option.none, oldestParticle)
  | p :: ps, oldestParticle, oldestParticleLifetime =>
    if st.ephemeralType p = EphemeralType.none then (Option.some p, oldestParticle)
    else
      let lifetime := currentSimulationTime - st.ephemeralStartTime p
      let tracked : Option ℕ × ℚ :=
        if lifetime ≥ oldestParticleLifetime then (Option.some p, lifetime)
        else (oldestParticle, oldestParticleLifetime)
      scanFind st currentSimulationTime ps tracked.1 tracked.2

/-- The first `k` slot positions visited starting at `p`, with the loop's
wrap-around at the region end. -/
def posFrom (st : EphPoints) : ℕ → ℕ → List ℕ
  | _, 0 => []
  | p, k + 1 => p :: posFrom st (st.wrapNext p) k

/-- Number of forward steps from `p` back to the search-start cursor
(equals the region size when `p` is the cursor itself). -/
def stepsToStart (st : EphPoints) (p : ℕ) : ℕ :=
  if p < st.freeEphemeralParticleSearchStartIndex then
    st.freeEphemeralParticleSearchStartIndex - p
  else
    st.allPointCount - p
      + (st.freeEphemeralParticleSearchStartIndex - st.shipPointCount)

/-- The pool state after `k` debris allocations at times `times 0`, ...,
`times (k-1)` starting from an all-free pool: the first `k` region slots
hold debris with those start times, the rest are free, and the cursor sits
just past the last filled slot (wrapped). -/
def FilledState (sp ac : ℕ) (times : ℕ → ℚ) (k : ℕ) (st : EphPoints) : Prop :=
  st.shipPointCount = sp ∧ st.allPointCount = ac
  ∧ st.freeEphemeralParticleSearchStartIndex = (if sp + k < ac then sp + k else sp)
  ∧ (∀ i, i < k → st.ephemeralType (sp + i) = EphemeralType.debris
      ∧ st.ephemeralStartTime (sp + i) = times i)
  ∧ (∀ p, sp + k ≤ p → p < ac → st.ephemeralType p = EphemeralType.none)

/-- `Points::CreateEphemeralParticleDebris`, restricted to the buffers of
the allocator: allocate a slot (possibly stealing the oldest), then mark it
as a debris particle started at the current time. -/
def createEphemeralParticleDebris (st : EphPoints) (currentSimulationTime : ℚ) :
    ℕ × EphPoints :=
  let r := findFreeEphemeralParticle st currentSimulationTime
  let st1 : EphPoints :=
    { r.2 with
        ephemeralType := updFn r.2.ephemeralType r.1 EphemeralType.debris,
        ephemeralStartTime := updFn r.2.ephemeralStartTime r.1 currentSimulationTime }
  (r.1, st1)

/-- Run one debris allocation per entry of a list of spawn times. -/
def allocRun (st : EphPoints) (ts : List ℚ) : EphPoints :=
  ts.foldl (fun s r => (createEphemeralParticleDebris s r).2) st

/-- A concrete two-slot ephemeral pool (region `[1, 3)`), initially all
free, cursor at the region start. -/
def eph0 : EphPoints where
  shipPointCount := 1
  allPointCount := 3
  ephemeralType := fun _ => EphemeralType.none
  ephemeralStartTime := fun _ => 0
  freeEphemeralParticleSearchStartIndex := 1

/-- A fully-occupied two-slot pool: both region slots hold debris, slot 1
started at time 0 and slot 2 at time 1; cursor at the region start. -/
def ephFull : EphPoints where
  shipPointCount := 1
  allPointCount := 3
  ephemeralType := fun _ => EphemeralType.debris
  ephemeralStartTime := fun p => if p = 1 then 0 else 1
  freeEphemeralParticleSearchStartIndex := 1

/-- A particle state with a uniform water fraction (used to drive the
water-sensing switch across update steps). -/
def mkWaterPts (w : ℚ) : PointsState where
  water := fun _ => w
  temperature := fun _ => 0
  heat := fun _ => 0

/-- Run `UpdateAutomaticConductivityToggles` once per entry of a water-level
trace, recording for each step whether a toggle notification fired. -/
def autoToggleRun (st : ElecState) : List ℚ → ElecState × List Bool
  | [] => (st, [])
  | w :: ws =>
    let r := updateAutomaticConductivityToggles st (mkWaterPts w)
    let rest := autoToggleRun r.1 ws
    (rest.1, (!r.2.isEmpty) :: rest.2)

/-! ## Concrete test networks -/

/-- A one-switch network: element 0 is a water-sensing switch with material
default non-conducting. -/
def switchElecState : ElecState where
  count := 1
  isDeleted := fun _ => false
  conductsElectricity := fun _ => false
  materialConductsElectricity := fun _ => false
  connectedElectricalElements := fun _ => []
  conductingConnectedElectricalElements := fun _ => []
  currentConnectivityVisitSequenceNumber := fun _ => 0
  generatorIsProducingCurrent := fun _ => false
  pointIndex := fun n => n
  materialHeatGenerated := fun _ => 0
  materialOperatingTemperatureMin := fun _ => 0
  materialOperatingTemperatureMax := fun _ => 100
  instanceIndex := fun _ => Option.none
  sources := []
  automaticConductivityTogglingElements := [0]
  hasSwitchBeenToggledInStep := false

/-- A two-element network: elements 0 and 1 are mutual neighbors, element 1
conducts, element 0 does not; no conducting pairs yet. -/
def pairElecState : ElecState where
  count := 2
  isDeleted := fun _ => false
  conductsElectricity := fun n => match n with | 1 => true | _ => false
  materialConductsElectricity := fun n => match n with | 1 => true | _ => false
  connectedElectricalElements := fun n => match n with | 0 => [1] | 1 => [0] | _ => []
  conductingConnectedElectricalElements := fun _ => []
  currentConnectivityVisitSequenceNumber := fun _ => 0
  generatorIsProducingCurrent := fun _ => false
  pointIndex := fun n => n
  materialHeatGenerated := fun _ => 0
  materialOperatingTemperatureMin := fun _ => 0
  materialOperatingTemperatureMax := fun _ => 100
  instanceIndex := fun _ => Option.none
  sources := []
  automaticConductivityTogglingElements := []
  hasSwitchBeenToggledInStep := false

/-- A one-generator network: element 0 is a producing generator with no
instance index (not announced on the electrical panel). -/
def genElecStateNoInstance : ElecState where
  count := 1
  isDeleted := fun _ => false
  conductsElectricity := fun _ => true
  materialConductsElectricity := fun _ => true
  connectedElectricalElements := fun _ => []
  conductingConnectedElectricalElements := fun _ => []
  currentConnectivityVisitSequenceNumber := fun _ => 0
  generatorIsProducingCurrent := fun _ => true
  pointIndex := fun n => n
  materialHeatGenerated := fun _ => 0
  materialOperatingTemperatureMin := fun _ => 0
  materialOperatingTemperatureMax := fun _ => 100
  instanceIndex := fun _ => Option.none
  sources := [0]
  automaticConductivityTogglingElements := []
  hasSwitchBeenToggledInStep := false

/-- The same one-generator network with an instanced generator. -/
def genElecStateInstanced : ElecState :=
  { genElecStateNoInstance with instanceIndex := fun _ => Option.some 7 }

/-- Fully wet particles at nominal temperature. -/
def wetPts : PointsState where
  water := fun _ => 1
  temperature := fun _ => 20
  heat := fun _ => 0

end FloatingSandbox

namespace FloatingSandbox

/-! # Theorems -/

theorem updFn_same {α : Type} (f : ℕ → α) (x : ℕ) (a : α) : updFn f x a x = a := by
  simp [updFn]

theorem updFn_other {α : Type} (f : ℕ → α) (x : ℕ) (a : α) {y : ℕ} (h : y ≠ x) :
    updFn f x a y = f y := by
  simp [updFn, h]

/-! ### Conducting-connectivity maintenance: fold lemmas -/

theorem ccPush_self (cc : ℕ → List ℕ) {e other : ℕ} (h : other ≠ e) :
    ccPush cc e other e = cc e ++ [other] := by
  simp [ccPush, updFn, h, Ne.symm h]

theorem ccPush_other (cc : ℕ → List ℕ) {e other : ℕ} (h : other ≠ e) :
    ccPush cc e other other = cc other ++ [e] := by
  simp [ccPush, updFn, h]

theorem ccPush_ne (cc : ℕ → List ℕ) {e other a : ℕ} (hae : a ≠ e) (hao : a ≠ other) :
    ccPush cc e other a = cc a := by
  simp [ccPush, updFn, hae, hao]

theorem ccErase_self (cc : ℕ → List ℕ) {e other : ℕ} (h : other ≠ e) :
    ccErase cc e other e = (cc e).erase other := by
  simp [ccErase, updFn, h, Ne.symm h]

theorem ccErase_other (cc : ℕ → List ℕ) {e other : ℕ} (h : other ≠ e) :
    ccErase cc e other other = (cc other).erase e := by
  simp [ccErase, updFn, h]

theorem ccErase_ne (cc : ℕ → List ℕ) {e other a : ℕ} (hae : a ≠ e) (hao : a ≠ other) :
    ccErase cc e other a = cc a := by
  simp [ccErase, updFn, hae, hao]

theorem conductConnectStep_conducts (e : ℕ) (s : ElecState) (o : ℕ) :
    (conductConnectStep e s o).conductsElectricity = s.conductsElectricity := by
  unfold conductConnectStep
  split <;> rfl

theorem conductConnectStep_connected (e : ℕ) (s : ElecState) (o : ℕ) :
    (conductConnectStep e s o).connectedElectricalElements = s.connectedElectricalElements := by
  unfold conductConnectStep
  split <;> rfl

theorem conductSeverStep_conducts (e : ℕ) (s : ElecState) (o : ℕ) :
    (conductSeverStep e s o).conductsElectricity = s.conductsElectricity := by
  unfold conductSeverStep
  split <;> rfl

theorem conductSeverStep_connected (e : ℕ) (s : ElecState) (o : ℕ) :
    (conductSeverStep e s o).connectedElectricalElements = s.connectedElectricalElements := by
  unfold conductSeverStep
  split <;> rfl

theorem connectFold_conducts (e : ℕ) (L : List ℕ) (s : ElecState) :
    (L.foldl (conductConnectStep e) s).conductsElectricity = s.conductsElectricity := by
  induction L generalizing s with
  | nil => rfl
  | cons o R ih => rw [List.foldl_cons, ih, conductConnectStep_conducts]

theorem connectFold_connected (e : ℕ) (L : List ℕ) (s : ElecState) :
    (L.foldl (conductConnectStep e) s).connectedElectricalElements
      = s.connectedElectricalElements := by
  induction L generalizing s with
  | nil => rfl
  | cons o R ih => rw [List.foldl_cons, ih, conductConnectStep_connected]

theorem severFold_conducts (e : ℕ) (L : List ℕ) (s : ElecState) :
    (L.foldl (conductSeverStep e) s).conductsElectricity = s.conductsElectricity := by
  induction L generalizing s with
  | nil => rfl
  | cons o R ih => rw [List.foldl_cons, ih, conductSeverStep_conducts]

theorem severFold_connected (e : ℕ) (L : List ℕ) (s : ElecState) :
    (L.foldl (conductSeverStep e) s).connectedElectricalElements
      = s.connectedElectricalElements := by
  induction L generalizing s with
  | nil => rfl
  | cons o R ih => rw [List.foldl_cons, ih, conductSeverStep_connected]

/-- After the OFF→ON loop, the toggled element's conducting list has gained
exactly its conducting neighbors, in neighbor-list order. -/
theorem connectFold_cc_self (e : ℕ) (L : List ℕ) (s : ElecState) (he : e ∉ L) :
    (L.foldl (conductConnectStep e) s).conductingConnectedElectricalElements e
      = s.conductingConnectedElectricalElements e ++ L.filter s.conductsElectricity := by
  induction L generalizing s with
  | nil => simp
  | cons o R ih =>
    have hoe : o ≠ e := fun h => he (h ▸ List.mem_cons_self o R)
    have heR : e ∉ R := fun h => he (List.mem_cons_of_mem o h)
    rw [List.foldl_cons]
    by_cases hc : s.conductsElectricity o
    · have hstep : conductConnectStep e s o =
          { s with conductingConnectedElectricalElements :=
                     ccPush s.conductingConnectedElectricalElements e o } := by
        unfold conductConnectStep
        simp [hc]
      rw [hstep, ih _ heR]
      simp only [ccPush_self _ hoe, List.filter_cons, hc]
      simp [List.append_assoc]
    · have hstep : conductConnectStep e s o = s := by
        unfold conductConnectStep
        simp [hc]
      rw [hstep, ih _ heR]
      simp [List.filter_cons, hc]

/-- Elements outside the toggled element's neighbor list keep their
conducting list across the OFF→ON loop. -/
theorem connectFold_cc_notmem (e : ℕ) (L : List ℕ) (s : ElecState)
    {a : ℕ} (ha : a ∉ L) (hae : a ≠ e) :
    (L.foldl (conductConnectStep e) s).conductingConnectedElectricalElements a
      = s.conductingConnectedElectricalElements a := by
  induction L generalizing s with
  | nil => rfl
  | cons o R ih =>
    have hao : a ≠ o := fun h => ha (h ▸ List.mem_cons_self o R)
    have haR : a ∉ R := fun h => ha (List.mem_cons_of_mem o h)
    rw [List.foldl_cons]
    by_cases hc : s.conductsElectricity o
    · have hstep : conductConnectStep e s o =
          { s with conductingConnectedElectricalElements :=
                     ccPush s.conductingConnectedElectricalElements e o } := by
        unfold conductConnectStep
        simp [hc]
      rw [hstep, ih _ haR]
      simp [ccPush_ne _ hae hao]
    · have hstep : conductConnectStep e s o = s := by
        unfold conductConnectStep
        simp [hc]
      rw [hstep, ih _ haR]

/-- After the OFF→ON loop, each conducting neighbor's conducting list has
gained the toggled element at its end. -/
theorem connectFold_cc_mem (e : ℕ) (L : List ℕ) (s : ElecState)
    (he : e ∉ L) (hnd : L.Nodup) {a : ℕ} (ha : a ∈ L)
    (hc : s.conductsElectricity a = true) :
    (L.foldl (conductConnectStep e) s).conductingConnectedElectricalElements a
      = s.conductingConnectedElectricalElements a ++ [e] := by
  induction L generalizing s with
  | nil => cases ha
  | cons o R ih =>
    have hoe : o ≠ e := fun h => he (h ▸ List.mem_cons_self o R)
    have heR : e ∉ R := fun h => he (List.mem_cons_of_mem o h)
    have hndR : R.Nodup := (List.nodup_cons.mp hnd).2
    have hoR : o ∉ R := (List.nodup_cons.mp hnd).1
    rw [List.foldl_cons]
    rcases List.mem_cons.mp ha with rfl | haR
    · -- a = o: this step pushes, and a ∉ R so the rest leaves a's list alone
      have hcc : (conductConnectStep e s a).conductingConnectedElectricalElements
          = ccPush s.conductingConnectedElectricalElements e a := by
        unfold conductConnectStep
        simp [hc]
      rw [connectFold_cc_notmem e R _ hoR hoe, hcc]
      exact ccPush_other _ hoe
    · have hao : a ≠ o := fun h => hoR (h ▸ haR)
      have hc' : (conductConnectStep e s o).conductsElectricity a = true := by
        rw [conductConnectStep_conducts]
        exact hc
      rw [ih (conductConnectStep e s o) heR hndR haR hc']
      by_cases hco : s.conductsElectricity o
      · have hcc : (conductConnectStep e s o).conductingConnectedElectricalElements
            = ccPush s.conductingConnectedElectricalElements e o := by
          unfold conductConnectStep
          simp [hco]
        rw [hcc, ccPush_ne _ (ne_of_mem_of_not_mem ha he) hao]
      · have hcc : conductConnectStep e s o = s := by
          unfold conductConnectStep
          simp [hco]
        rw [hcc]

/-- Non-conducting neighbors keep their conducting list across the OFF→ON
loop. -/
theorem connectFold_cc_mem_noncond (e : ℕ) (L : List ℕ) (s : ElecState)
    (he : e ∉ L) (hnd : L.Nodup) {a : ℕ} (ha : a ∈ L)
    (hc : s.conductsElectricity a = false) :
    (L.foldl (conductConnectStep e) s).conductingConnectedElectricalElements a
      = s.conductingConnectedElectricalElements a := by
  induction L generalizing s with
  | nil => cases ha
  | cons o R ih =>
    have hoe : o ≠ e := fun h => he (h ▸ List.mem_cons_self o R)
    have heR : e ∉ R := fun h => he (List.mem_cons_of_mem o h)
    have hndR : R.Nodup := (List.nodup_cons.mp hnd).2
    have hoR : o ∉ R := (List.nodup_cons.mp hnd).1
    rw [List.foldl_cons]
    rcases List.mem_cons.mp ha with rfl | haR
    · have hstep : conductConnectStep e s a = s := by
        unfold conductConnectStep
        simp [hc]
      rw [hstep, connectFold_cc_notmem e R _ hoR hoe]
    · have hao : a ≠ o := fun h => hoR (h ▸ haR)
      have hc' : (conductConnectStep e s o).conductsElectricity a = false := by
        rw [conductConnectStep_conducts]
        exact hc
      rw [ih (conductConnectStep e s o) heR hndR haR hc']
      by_cases hco : s.conductsElectricity o
      · have hcc : (conductConnectStep e s o).conductingConnectedElectricalElements
            = ccPush s.conductingConnectedElectricalElements e o := by
          unfold conductConnectStep
          simp [hco]
        rw [hcc, ccPush_ne _ (ne_of_mem_of_not_mem ha he) hao]
      · have hcc : conductConnectStep e s o = s := by
          unfold conductConnectStep
          simp [hco]
        rw [hcc]

theorem foldl_erase_nodup (M : List ℕ) {l : List ℕ} (h : l.Nodup) :
    (M.foldl (fun l o => l.erase o) l).Nodup := by
  induction M generalizing l with
  | nil => exact h
  | cons o R ih => exact ih (h.erase o)

theorem foldl_erase_mem (M : List ℕ) {l : List ℕ} (h : l.Nodup) (b : ℕ) :
    b ∈ M.foldl (fun l o => l.erase o) l ↔ b ∈ l ∧ b ∉ M := by
  induction M generalizing l with
  | nil => simp
  | cons o R ih =>
    rw [List.foldl_cons, ih (h.erase o), h.mem_erase_iff]
    simp only [List.mem_cons]
    tauto

theorem foldl_erase_self (M : List ℕ) (h : M.Nodup) :
    M.foldl (fun l o => l.erase o) M = [] := by
  cases M with
  | nil => rfl
  | cons o R =>
    rw [List.foldl_cons, List.erase_cons_head]
    have : ∀ (N l : List ℕ), l ⊆ N → N.Nodup → l.Nodup →
        (N.foldl (fun l o => l.erase o) l) = [] := by
      intro N
      induction N with
      | nil =>
        intro l hsub _ _
        exact List.eq_nil_iff_forall_not_mem.mpr fun x hx => (List.not_mem_nil x) (hsub hx)
      | cons m S ih =>
        intro l hsub hN hl
        rw [List.foldl_cons]
        refine ih (l.erase m) (fun x hx => ?_) (List.nodup_cons.mp hN).2 (hl.erase m)
        have hxl : x ∈ l := List.mem_of_mem_erase hx
        have hxm : x ≠ m := (hl.mem_erase_iff.mp hx).1
        rcases List.mem_cons.mp (hsub hxl) with h' | h'
        · exact absurd h' hxm
        · exact h'
    have hnd := List.nodup_cons.mp h
    exact this R R (fun x hx => hx) hnd.2 hnd.2

/-- After the ON→OFF loop, the toggled element's conducting list has had
each of its conducting neighbors erased, in neighbor-list order. -/
theorem severFold_cc_self (e : ℕ) (L : List ℕ) (s : ElecState) (he : e ∉ L) :
    (L.foldl (conductSeverStep e) s).conductingConnectedElectricalElements e
      = (L.filter s.conductsElectricity).foldl (fun l o => l.erase o)
          (s.conductingConnectedElectricalElements e) := by
  induction L generalizing s with
  | nil => simp
  | cons o R ih =>
    have hoe : o ≠ e := fun h => he (h ▸ List.mem_cons_self o R)
    have heR : e ∉ R := fun h => he (List.mem_cons_of_mem o h)
    rw [List.foldl_cons, ih _ heR]
    by_cases hc : s.conductsElectricity o
    · have hcc : (conductSeverStep e s o).conductingConnectedElectricalElements
          = ccErase s.conductingConnectedElectricalElements e o := by
        unfold conductSeverStep
        simp [hc]
      rw [conductSeverStep_conducts, hcc]
      simp only [List.filter_cons, hc, if_pos, List.foldl_cons]
      rw [ccErase_self _ hoe]
    · have hcc : conductSeverStep e s o = s := by
        unfold conductSeverStep
        simp [hc]
      rw [hcc]
      simp [List.filter_cons, hc]

/-- Elements outside the toggled element's neighbor list keep their
conducting list across the ON→OFF loop. -/
theorem severFold_cc_notmem (e : ℕ) (L : List ℕ) (s : ElecState)
    {a : ℕ} (ha : a ∉ L) (hae : a ≠ e) :
    (L.foldl (conductSeverStep e) s).conductingConnectedElectricalElements a
      = s.conductingConnectedElectricalElements a := by
  induction L generalizing s with
  | nil => rfl
  | cons o R ih =>
    have hao : a ≠ o := fun h => ha (h ▸ List.mem_cons_self o R)
    have haR : a ∉ R := fun h => ha (List.mem_cons_of_mem o h)
    rw [List.foldl_cons, ih _ haR]
    by_cases hc : s.conductsElectricity o
    · have hcc : (conductSeverStep e s o).conductingConnectedElectricalElements
          = ccErase s.conductingConnectedElectricalElements e o := by
        unfold conductSeverStep
        simp [hc]
      rw [hcc, ccErase_ne _ hae hao]
    · have hcc : conductSeverStep e s o = s := by
        unfold conductSeverStep
        simp [hc]
      rw [hcc]

/-- After the ON→OFF loop, each conducting neighbor's conducting list has
had the toggled element erased. -/
theorem severFold_cc_mem (e : ℕ) (L : List ℕ) (s : ElecState)
    (he : e ∉ L) (hnd : L.Nodup) {a : ℕ} (ha : a ∈ L)
    (hc : s.conductsElectricity a = true) :
    (L.foldl (conductSeverStep e) s).conductingConnectedElectricalElements a
      = (s.conductingConnectedElectricalElements a).erase e := by
  induction L generalizing s with
  | nil => cases ha
  | cons o R ih =>
    have hoe : o ≠ e := fun h => he (h ▸ List.mem_cons_self o R)
    have heR : e ∉ R := fun h => he (List.mem_cons_of_mem o h)
    have hndR : R.Nodup := (List.nodup_cons.mp hnd).2
    have hoR : o ∉ R := (List.nodup_cons.mp hnd).1
    rw [List.foldl_cons]
    rcases List.mem_cons.mp ha with rfl | haR
    · have hcc : (conductSeverStep e s a).conductingConnectedElectricalElements
          = ccErase s.conductingConnectedElectricalElements e a := by
        unfold conductSeverStep
        simp [hc]
      rw [severFold_cc_notmem e R _ hoR hoe, hcc]
      exact ccErase_other _ hoe
    · have hao : a ≠ o := fun h => hoR (h ▸ haR)
      have hc' : (conductSeverStep e s o).conductsElectricity a = true := by
        rw [conductSeverStep_conducts]
        exact hc
      rw [ih (conductSeverStep e s o) heR hndR haR hc']
      by_cases hco : s.conductsElectricity o
      · have hcc : (conductSeverStep e s o).conductingConnectedElectricalElements
            = ccErase s.conductingConnectedElectricalElements e o := by
          unfold conductSeverStep
          simp [hco]
        rw [hcc, ccErase_ne _ (ne_of_mem_of_not_mem ha he) hao]
      · have hcc : conductSeverStep e s o = s := by
          unfold conductSeverStep
          simp [hco]
        rw [hcc]

/-- Non-conducting neighbors keep their conducting list across the ON→OFF
loop. -/
theorem severFold_cc_mem_noncond (e : ℕ) (L : List ℕ) (s : ElecState)
    (he : e ∉ L) (hnd : L.Nodup) {a : ℕ} (ha : a ∈ L)
    (hc : s.conductsElectricity a = false) :
    (L.foldl (conductSeverStep e) s).conductingConnectedElectricalElements a
      = s.conductingConnectedElectricalElements a := by
  induction L generalizing s with
  | nil => cases ha
  | cons o R ih =>
    have hoe : o ≠ e := fun h => he (h ▸ List.mem_cons_self o R)
    have heR : e ∉ R := fun h => he (List.mem_cons_of_mem o h)
    have hndR : R.Nodup := (List.nodup_cons.mp hnd).2
    have hoR : o ∉ R := (List.nodup_cons.mp hnd).1
    rw [List.foldl_cons]
    rcases List.mem_cons.mp ha with rfl | haR
    · have hstep : conductSeverStep e s a = s := by
        unfold conductSeverStep
        simp [hc]
      rw [hstep, severFold_cc_notmem e R _ hoR hoe]
    · have hao : a ≠ o := fun h => hoR (h ▸ haR)
      have hc' : (conductSeverStep e s o).conductsElectricity a = false := by
        rw [conductSeverStep_conducts]
        exact hc
      rw [ih (conductSeverStep e s o) heR hndR haR hc']
      by_cases hco : s.conductsElectricity o
      · have hcc : (conductSeverStep e s o).conductingConnectedElectricalElements
            = ccErase s.conductingConnectedElectricalElements e o := by
          unfold conductSeverStep
          simp [hco]
        rw [hcc, ccErase_ne _ (ne_of_mem_of_not_mem ha he) hao]
      · have hcc : conductSeverStep e s o = s := by
          unfold conductSeverStep
          simp [hco]
        rw [hcc]

theorem ElecWf.cc_empty_of_not_conducts {st : ElecState} (h : ElecWf st) {a : ℕ}
    (ha : st.conductsElectricity a = false) :
    st.conductingConnectedElectricalElements a = [] := by
  refine List.eq_nil_iff_forall_not_mem.mpr fun x hx => ?_
  have := (h.cc_char a x).mp hx
  rw [ha] at this
  simp at this

theorem ElecWf.not_mem_cc_of_not_conducts {st : ElecState} (h : ElecWf st) {a b : ℕ}
    (hb : st.conductsElectricity b = false) :
    b ∉ st.conductingConnectedElectricalElements a := by
  intro hmem
  have := (h.cc_char a b).mp hmem
  rw [hb] at this
  simp at this

/-- Transport of the graph invariant along equality of the three fields it
mentions. -/
theorem elecWf_of_fields {st st' : ElecState}
    (hcond : st'.conductsElectricity = st.conductsElectricity)
    (hconn : st'.connectedElectricalElements = st.connectedElectricalElements)
    (hcc : st'.conductingConnectedElectricalElements
      = st.conductingConnectedElectricalElements)
    (h : ElecWf st) : ElecWf st' := by
  constructor
  · intro a b
    rw [hconn]
    exact h.conn_sym a b
  · intro a
    rw [hconn]
    exact h.conn_nodup a
  · intro a
    rw [hconn]
    exact h.conn_irrefl a
  · intro a b
    rw [hcond, hconn, hcc]
    exact h.cc_char a b
  · intro a
    rw [hcc]
    exact h.cc_nodup a

theorem internalSetSwitchState_fst_of_ne (e : ℕ) (b : Bool) (st : ElecState)
    (hb : ¬ b = st.conductsElectricity e) :
    (internalSetSwitchState e b st).1 =
      (let st1 : ElecState :=
        { st with conductsElectricity := updFn st.conductsElectricity e b }
       let st2 : ElecState :=
        if b then (st.connectedElectricalElements e).foldl (conductConnectStep e) st1
        else (st.connectedElectricalElements e).foldl (conductSeverStep e) st1
       { st2 with hasSwitchBeenToggledInStep := true }) := by
  unfold internalSetSwitchState
  rw [if_neg hb]

/-- The graph invariant is preserved by `InternalSetSwitchState`. -/
theorem elecWf_internalSetSwitchState (e : ℕ) (b : Bool) {st : ElecState}
    (hwf : ElecWf st) : ElecWf (internalSetSwitchState e b st).1 := by
  by_cases hb : b = st.conductsElectricity e
  · have : (internalSetSwitchState e b st).1 = st := by
      unfold internalSetSwitchState
      rw [if_pos hb]
    rw [this]
    exact hwf
  · rw [internalSetSwitchState_fst_of_ne e b st hb]
    have he : e ∉ st.connectedElectricalElements e := hwf.conn_irrefl e
    have hnd : (st.connectedElectricalElements e).Nodup := hwf.conn_nodup e
    cases hbv : b with
    | true =>
      -- OFF -> ON
      rw [hbv] at hb
      have hce : st.conductsElectricity e = false := by
        cases h : st.conductsElectricity e with
        | true => exact absurd h.symm hb
        | false => rfl
      simp only [hbv, if_true]
      set st1 : ElecState :=
        { st with conductsElectricity := updFn st.conductsElectricity e true } with hst1
      set L := st.connectedElectricalElements e with hL
      have hcond1 : st1.conductsElectricity = updFn st.conductsElectricity e true := rfl
      have hconn1 : st1.connectedElectricalElements = st.connectedElectricalElements := rfl
      have hcc1 : st1.conductingConnectedElectricalElements
          = st.conductingConnectedElectricalElements := rfl
      have hccnil : st.conductingConnectedElectricalElements e = [] :=
        hwf.cc_empty_of_not_conducts hce
      have hnotecc : ∀ a, e ∉ st.conductingConnectedElectricalElements a :=
        fun a => hwf.not_mem_cc_of_not_conducts hce
      have hfilter : L.filter st1.conductsElectricity = L.filter st.conductsElectricity := by
        refine List.filter_congr fun o ho => ?_
        have hoe : o ≠ e := ne_of_mem_of_not_mem ho he
        rw [hcond1, updFn_other _ _ _ hoe]
      set st2 : ElecState := L.foldl (conductConnectStep e) st1 with hst2
      have hcond2 : st2.conductsElectricity = st1.conductsElectricity :=
        connectFold_conducts e L st1
      have hconn2 : st2.connectedElectricalElements = st.connectedElectricalElements :=
        connectFold_connected e L st1
      have hcc2e : st2.conductingConnectedElectricalElements e
          = L.filter st.conductsElectricity := by
        rw [hst2, connectFold_cc_self e L st1 he, hcc1, hccnil, hfilter]
        simp
      have hcc2mem : ∀ a ∈ L, st.conductsElectricity a = true →
          st2.conductingConnectedElectricalElements a
            = st.conductingConnectedElectricalElements a ++ [e] := by
        intro a ha hca
        have hae : a ≠ e := ne_of_mem_of_not_mem ha he
        have hca1 : st1.conductsElectricity a = true := by
          rw [hcond1, updFn_other _ _ _ hae]
          exact hca
        rw [hst2, connectFold_cc_mem e L st1 he hnd ha hca1, hcc1]
      have hcc2memnc : ∀ a ∈ L, st.conductsElectricity a = false →
          st2.conductingConnectedElectricalElements a
            = st.conductingConnectedElectricalElements a := by
        intro a ha hca
        have hae : a ≠ e := ne_of_mem_of_not_mem ha he
        have hca1 : st1.conductsElectricity a = false := by
          rw [hcond1, updFn_other _ _ _ hae]
          exact hca
        rw [hst2, connectFold_cc_mem_noncond e L st1 he hnd ha hca1, hcc1]
      have hcc2nm : ∀ a, a ∉ L → a ≠ e →
          st2.conductingConnectedElectricalElements a
            = st.conductingConnectedElectricalElements a := by
        intro a ha hae
        rw [hst2, connectFold_cc_notmem e L st1 ha hae, hcc1]
      constructor
      · intro a b'
        show a ∈ st2.connectedElectricalElements b' ↔ b' ∈ st2.connectedElectricalElements a
        rw [hconn2]
        exact hwf.conn_sym a b'
      · intro a
        show (st2.connectedElectricalElements a).Nodup
        rw [hconn2]
        exact hwf.conn_nodup a
      · intro a
        show a ∉ st2.connectedElectricalElements a
        rw [hconn2]
        exact hwf.conn_irrefl a
      · intro a b'
        show b' ∈ st2.conductingConnectedElectricalElements a ↔
          (b' ∈ st2.connectedElectricalElements a
            ∧ st2.conductsElectricity a = true ∧ st2.conductsElectricity b' = true)
        rw [hconn2, hcond2, hcond1]
        by_cases hae : a = e
        · rw [hae, hcc2e]
          by_cases hbe : b' = e
          · rw [hbe]
            simp only [List.mem_filter]
            constructor
            · intro hmem
              exact absurd hmem.1 he
            · rintro ⟨hmem, -⟩
              exact absurd hmem he
          · rw [List.mem_filter, updFn_same, updFn_other _ _ _ hbe]
            rw [← hL]
            tauto
        · by_cases haL : a ∈ L
          · cases hca : st.conductsElectricity a with
            | true =>
              rw [hcc2mem a haL hca, List.mem_append, List.mem_singleton]
              rw [updFn_other _ _ _ hae]
              by_cases hbe : b' = e
              · rw [hbe, updFn_same]
                have hea : e ∈ st.connectedElectricalElements a := (hwf.conn_sym e a).mpr haL
                simp [hea, hca, hnotecc a]
              · rw [updFn_other _ _ _ hbe]
                rw [hwf.cc_char a b']
                simp [hbe, hca]
            | false =>
              rw [hcc2memnc a haL hca, updFn_other _ _ _ hae]
              rw [hwf.cc_char a b']
              simp [hca]
          · rw [hcc2nm a haL hae, updFn_other _ _ _ hae]
            by_cases hbe : b' = e
            · rw [hbe, updFn_same]
              have h1 : e ∉ st.conductingConnectedElectricalElements a := hnotecc a
              have h2 : e ∉ st.connectedElectricalElements a := by
                intro hmem
                exact haL ((hwf.conn_sym e a).mp hmem)
              simp [h1, h2]
            · rw [updFn_other _ _ _ hbe]
              exact hwf.cc_char a b'
      · intro a
        show (st2.conductingConnectedElectricalElements a).Nodup
        by_cases hae : a = e
        · rw [hae, hcc2e]
          exact hnd.filter _
        · by_cases haL : a ∈ L
          · cases hca : st.conductsElectricity a with
            | true =>
              rw [hcc2mem a haL hca]
              have : e ∉ st.conductingConnectedElectricalElements a := hnotecc a
              simp [List.nodup_append, hwf.cc_nodup a, this]
            | false =>
              rw [hcc2memnc a haL hca]
              exact hwf.cc_nodup a
          · rw [hcc2nm a haL hae]
            exact hwf.cc_nodup a
    | false =>
      -- ON -> OFF
      rw [hbv] at hb
      have hce : st.conductsElectricity e = true := by
        cases h : st.conductsElectricity e with
        | true => rfl
        | false => exact absurd h.symm hb
      simp only [hbv, if_false, Bool.false_eq_true]
      set st1 : ElecState :=
        { st with conductsElectricity := updFn st.conductsElectricity e false } with hst1
      set L := st.connectedElectricalElements e with hL
      have hcond1 : st1.conductsElectricity = updFn st.conductsElectricity e false := rfl
      have hconn1 : st1.connectedElectricalElements = st.connectedElectricalElements := rfl
      have hcc1 : st1.conductingConnectedElectricalElements
          = st.conductingConnectedElectricalElements := rfl
      have hfilter : L.filter st1.conductsElectricity = L.filter st.conductsElectricity := by
        refine List.filter_congr fun o ho => ?_
        have hoe : o ≠ e := ne_of_mem_of_not_mem ho he
        rw [hcond1, updFn_other _ _ _ hoe]
      set st2 : ElecState := L.foldl (conductSeverStep e) st1 with hst2
      have hcond2 : st2.conductsElectricity = st1.conductsElectricity :=
        severFold_conducts e L st1
      have hconn2 : st2.connectedElectricalElements = st.connectedElectricalElements :=
        severFold_connected e L st1
      have hcc2e : st2.conductingConnectedElectricalElements e = [] := by
        rw [hst2, severFold_cc_self e L st1 he, hcc1, hfilter]
        refine List.eq_nil_iff_forall_not_mem.mpr fun x hx => ?_
        rw [foldl_erase_mem _ (hwf.cc_nodup e) x] at hx
        obtain ⟨hx1, hx2⟩ := hx
        have := (hwf.cc_char e x).mp hx1
        exact hx2 (List.mem_filter.mpr ⟨this.1, this.2.2⟩)
      have hcc2mem : ∀ a ∈ L, st.conductsElectricity a = true →
          st2.conductingConnectedElectricalElements a
            = (st.conductingConnectedElectricalElements a).erase e := by
        intro a ha hca
        have hae : a ≠ e := ne_of_mem_of_not_mem ha he
        have hca1 : st1.conductsElectricity a = true := by
          rw [hcond1, updFn_other _ _ _ hae]
          exact hca
        rw [hst2, severFold_cc_mem e L st1 he hnd ha hca1, hcc1]
      have hcc2memnc : ∀ a ∈ L, st.conductsElectricity a = false →
          st2.conductingConnectedElectricalElements a
            = st.conductingConnectedElectricalElements a := by
        intro a ha hca
        have hae : a ≠ e := ne_of_mem_of_not_mem ha he
        have hca1 : st1.conductsElectricity a = false := by
          rw [hcond1, updFn_other _ _ _ hae]
          exact hca
        rw [hst2, severFold_cc_mem_noncond e L st1 he hnd ha hca1, hcc1]
      have hcc2nm : ∀ a, a ∉ L → a ≠ e →
          st2.conductingConnectedElectricalElements a
            = st.conductingConnectedElectricalElements a := by
        intro a ha hae
        rw [hst2, severFold_cc_notmem e L st1 ha hae, hcc1]
      constructor
      · intro a b'
        show a ∈ st2.connectedElectricalElements b' ↔ b' ∈ st2.connectedElectricalElements a
        rw [hconn2]
        exact hwf.conn_sym a b'
      · intro a
        show (st2.connectedElectricalElements a).Nodup
        rw [hconn2]
        exact hwf.conn_nodup a
      · intro a
        show a ∉ st2.connectedElectricalElements a
        rw [hconn2]
        exact hwf.conn_irrefl a
      · intro a b'
        show b' ∈ st2.conductingConnectedElectricalElements a ↔
          (b' ∈ st2.connectedElectricalElements a
            ∧ st2.conductsElectricity a = true ∧ st2.conductsElectricity b' = true)
        rw [hconn2, hcond2, hcond1]
        by_cases hae : a = e
        · rw [hae, hcc2e, updFn_same]
          simp
        · by_cases haL : a ∈ L
          · cases hca : st.conductsElectricity a with
            | true =>
              rw [hcc2mem a haL hca, (hwf.cc_nodup a).mem_erase_iff]
              rw [updFn_other _ _ _ hae]
              by_cases hbe : b' = e
              · rw [hbe, updFn_same]
                simp
              · rw [updFn_other _ _ _ hbe, hwf.cc_char a b']
                simp [hbe, hca]
            | false =>
              rw [hcc2memnc a haL hca, updFn_other _ _ _ hae]
              rw [hwf.cc_char a b']
              simp [hca]
          · rw [hcc2nm a haL hae, updFn_other _ _ _ hae]
            by_cases hbe : b' = e
            · rw [hbe, updFn_same]
              have h2 : e ∉ st.connectedElectricalElements a := by
                intro hmem
                exact haL ((hwf.conn_sym e a).mp hmem)
              have h1 : e ∉ st.conductingConnectedElectricalElements a := by
                intro hmem
                exact h2 ((hwf.cc_char a e).mp hmem).1
              simp [h1, h2]
            · rw [updFn_other _ _ _ hbe]
              exact hwf.cc_char a b'
      · intro a
        show (st2.conductingConnectedElectricalElements a).Nodup
        by_cases hae : a = e
        · rw [hae, hcc2e]
          exact List.nodup_nil
        · by_cases haL : a ∈ L
          · cases hca : st.conductsElectricity a with
            | true =>
              rw [hcc2mem a haL hca]
              exact (hwf.cc_nodup a).erase e
            | false =>
              rw [hcc2memnc a haL hca]
              exact hwf.cc_nodup a
          · rw [hcc2nm a haL hae]
            exact hwf.cc_nodup a

/-! ### Invariant preservation across the other operations -/

theorem processSource_conducts (g : ℕ) (params : PropParams)
    (acc : ElecState × PointsState × List ElecEvent) (s : ℕ) :
    (processSource g params acc s).1.conductsElectricity = acc.1.conductsElectricity := by
  unfold processSource
  dsimp only
  repeat' split
  all_goals rfl

theorem processSource_connected (g : ℕ) (params : PropParams)
    (acc : ElecState × PointsState × List ElecEvent) (s : ℕ) :
    (processSource g params acc s).1.connectedElectricalElements
      = acc.1.connectedElectricalElements := by
  unfold processSource
  dsimp only
  repeat' split
  all_goals rfl

theorem processSource_cc (g : ℕ) (params : PropParams)
    (acc : ElecState × PointsState × List ElecEvent) (s : ℕ) :
    (processSource g params acc s).1.conductingConnectedElectricalElements
      = acc.1.conductingConnectedElectricalElements := by
  unfold processSource
  dsimp only
  repeat' split
  all_goals rfl

theorem updateSourcesAndPropagation_conducts (g : ℕ) (st : ElecState)
    (pts : PointsState) (params : PropParams) :
    (updateSourcesAndPropagation g st pts params).1.conductsElectricity
      = st.conductsElectricity := by
  unfold updateSourcesAndPropagation
  have : ∀ (L : List ℕ) (acc : ElecState × PointsState × List ElecEvent),
      (L.foldl (processSource g params) acc).1.conductsElectricity
        = acc.1.conductsElectricity := by
    intro L
    induction L with
    | nil => intro acc; rfl
    | cons s R ih =>
      intro acc
      rw [List.foldl_cons, ih, processSource_conducts]
  exact this st.sources (st, pts, [])

theorem updateSourcesAndPropagation_connected (g : ℕ) (st : ElecState)
    (pts : PointsState) (params : PropParams) :
    (updateSourcesAndPropagation g st pts params).1.connectedElectricalElements
      = st.connectedElectricalElements := by
  unfold updateSourcesAndPropagation
  have : ∀ (L : List ℕ) (acc : ElecState × PointsState × List ElecEvent),
      (L.foldl (processSource g params) acc).1.connectedElectricalElements
        = acc.1.connectedElectricalElements := by
    intro L
    induction L with
    | nil => intro acc; rfl
    | cons s R ih =>
      intro acc
      rw [List.foldl_cons, ih, processSource_connected]
  exact this st.sources (st, pts, [])

theorem updateSourcesAndPropagation_cc (g : ℕ) (st : ElecState)
    (pts : PointsState) (params : PropParams) :
    (updateSourcesAndPropagation g st pts params).1.conductingConnectedElectricalElements
      = st.conductingConnectedElectricalElements := by
  unfold updateSourcesAndPropagation
  have : ∀ (L : List ℕ) (acc : ElecState × PointsState × List ElecEvent),
      (L.foldl (processSource g params) acc).1.conductingConnectedElectricalElements
        = acc.1.conductingConnectedElectricalElements := by
    intro L
    induction L with
    | nil => intro acc; rfl
    | cons s R ih =>
      intro acc
      rw [List.foldl_cons, ih, processSource_cc]
  exact this st.sources (st, pts, [])

theorem elecWf_autoConductivityStep (pts : PointsState)
    (acc : ElecState × List ElecEvent) (k : ℕ) (hwf : ElecWf acc.1) :
    ElecWf (autoConductivityStep pts acc k).1 := by
  unfold autoConductivityStep
  repeat' split
  · exact hwf
  · exact elecWf_internalSetSwitchState _ _ hwf
  · exact elecWf_internalSetSwitchState _ _ hwf
  · exact hwf

theorem elecWf_updateAutomaticConductivityToggles (st : ElecState)
    (pts : PointsState) (hwf : ElecWf st) :
    ElecWf (updateAutomaticConductivityToggles st pts).1 := by
  unfold updateAutomaticConductivityToggles
  have : ∀ (L : List ℕ) (acc : ElecState × List ElecEvent), ElecWf acc.1 →
      ElecWf ((L.foldl (autoConductivityStep pts) acc)).1 := by
    intro L
    induction L with
    | nil => intro acc h; exact h
    | cons k R ih =>
      intro acc h
      rw [List.foldl_cons]
      exact ih _ (elecWf_autoConductivityStep pts acc k h)
  exact this st.automaticConductivityTogglingElements (st, []) hwf

/-- Every reachable state satisfies the conductivity-graph invariant. -/
theorem elecWf_of_reachable {st : ElecState} (h : ElecReachable st) : ElecWf st := by
  induction h with
  | init st hwf => exact hwf
  | setSwitchState st e b _ ih => exact elecWf_internalSetSwitchState e b ih
  | autoToggles st pts _ ih => exact elecWf_updateAutomaticConductivityToggles st pts ih
  | propagate g st pts params _ ih =>
    exact elecWf_of_fields
      (updateSourcesAndPropagation_conducts g st pts params)
      (updateSourcesAndPropagation_connected g st pts params)
      (updateSourcesAndPropagation_cc g st pts params) ih

/-- **C2.** In every state reachable by the subsystem's operations, the
conducting-neighbor relation is symmetric, holds only between two currently
conducting elements, and a non-conducting element has an empty
conducting-neighbor list. -/
theorem conductingNeighbors_symmetric_of_reachable {st : ElecState}
    (h : ElecReachable st) :
    (∀ a b, b ∈ st.conductingConnectedElectricalElements a
      ↔ a ∈ st.conductingConnectedElectricalElements b)
    ∧ (∀ a b, b ∈ st.conductingConnectedElectricalElements a
      → st.conductsElectricity a = true ∧ st.conductsElectricity b = true)
    ∧ (∀ a, st.conductsElectricity a = false
      → st.conductingConnectedElectricalElements a = []) := by
  have hwf := elecWf_of_reachable h
  refine ⟨fun a b => ?_, fun a b hmem => ?_, fun a ha => hwf.cc_empty_of_not_conducts ha⟩
  · rw [hwf.cc_char a b, hwf.cc_char b a, hwf.conn_sym b a]
    tauto
  · have := (hwf.cc_char a b).mp hmem
    exact ⟨this.2.1, this.2.2⟩

/-- **C4.** For a non-conducting element `e` of a well-formed state, toggling
conductivity ON and then OFF restores every element's conducting-neighbor
list (and `e`'s own), as well as the conductivity buffer. -/
theorem setConductivity_toggle_roundtrip {st : ElecState} (hwf : ElecWf st)
    {e : ℕ} (hce : st.conductsElectricity e = false) :
    (internalSetSwitchState e false
        (internalSetSwitchState e true st).1).1.conductingConnectedElectricalElements
      = st.conductingConnectedElectricalElements
    ∧ (internalSetSwitchState e false
        (internalSetSwitchState e true st).1).1.conductsElectricity
      = st.conductsElectricity := by
  have he : e ∉ st.connectedElectricalElements e := hwf.conn_irrefl e
  have hnd : (st.connectedElectricalElements e).Nodup := hwf.conn_nodup e
  set L := st.connectedElectricalElements e with hL
  have hb1 : ¬ ((true : Bool) = st.conductsElectricity e) := by
    rw [hce]
    simp
  set st1 : ElecState :=
    { st with conductsElectricity := updFn st.conductsElectricity e true } with hst1
  set st2 : ElecState := L.foldl (conductConnectStep e) st1 with hst2
  set sMid : ElecState := { st2 with hasSwitchBeenToggledInStep := true } with hsMid
  have h1 : (internalSetSwitchState e true st).1 = sMid := by
    unfold internalSetSwitchState
    rw [if_neg hb1]
    rfl
  have hcondMid : sMid.conductsElectricity = updFn st.conductsElectricity e true := by
    show st2.conductsElectricity = _
    rw [hst2, connectFold_conducts]
  have hsMidce : sMid.conductsElectricity e = true := by
    rw [hcondMid]
    exact updFn_same _ _ _
  have hb2 : ¬ ((false : Bool) = sMid.conductsElectricity e) := by
    rw [hsMidce]
    simp
  have hconnMid : sMid.connectedElectricalElements = st.connectedElectricalElements := by
    show st2.connectedElectricalElements = _
    rw [hst2, connectFold_connected]
  have hfilter1 : L.filter st1.conductsElectricity = L.filter st.conductsElectricity := by
    refine List.filter_congr fun o ho => ?_
    show updFn st.conductsElectricity e true o = _
    rw [updFn_other _ _ _ (ne_of_mem_of_not_mem ho he)]
  have hccnil : st.conductingConnectedElectricalElements e = [] :=
    hwf.cc_empty_of_not_conducts hce
  have hnotecc : ∀ a, e ∉ st.conductingConnectedElectricalElements a :=
    fun a => hwf.not_mem_cc_of_not_conducts hce
  have hccMid_e : sMid.conductingConnectedElectricalElements e
      = L.filter st.conductsElectricity := by
    show st2.conductingConnectedElectricalElements e = _
    rw [hst2, connectFold_cc_self e L st1 he]
    show st.conductingConnectedElectricalElements e ++ _ = _
    rw [hccnil, hfilter1]
    simp
  have hccMid_mem : ∀ a ∈ L, st.conductsElectricity a = true →
      sMid.conductingConnectedElectricalElements a
        = st.conductingConnectedElectricalElements a ++ [e] := by
    intro a ha hca
    have hae : a ≠ e := ne_of_mem_of_not_mem ha he
    have hca1 : st1.conductsElectricity a = true := by
      show updFn st.conductsElectricity e true a = true
      rw [updFn_other _ _ _ hae]
      exact hca
    show st2.conductingConnectedElectricalElements a = _
    rw [hst2, connectFold_cc_mem e L st1 he hnd ha hca1]
  have hccMid_memnc : ∀ a ∈ L, st.conductsElectricity a = false →
      sMid.conductingConnectedElectricalElements a
        = st.conductingConnectedElectricalElements a := by
    intro a ha hca
    have hae : a ≠ e := ne_of_mem_of_not_mem ha he
    have hca1 : st1.conductsElectricity a = false := by
      show updFn st.conductsElectricity e true a = false
      rw [updFn_other _ _ _ hae]
      exact hca
    show st2.conductingConnectedElectricalElements a = _
    rw [hst2, connectFold_cc_mem_noncond e L st1 he hnd ha hca1]
  have hccMid_nm : ∀ a, a ∉ L → a ≠ e →
      sMid.conductingConnectedElectricalElements a
        = st.conductingConnectedElectricalElements a := by
    intro a ha hae
    show st2.conductingConnectedElectricalElements a = _
    rw [hst2, connectFold_cc_notmem e L st1 ha hae]
  -- second toggle
  set st1' : ElecState :=
    { sMid with conductsElectricity := updFn sMid.conductsElectricity e false } with hst1'
  have hcfin : st1'.conductsElectricity = st.conductsElectricity := by
    funext y
    show updFn sMid.conductsElectricity e false y = st.conductsElectricity y
    by_cases hy : y = e
    · rw [hy, updFn_same, hce]
    · rw [updFn_other _ _ _ hy, hcondMid, updFn_other _ _ _ hy]
  set st2' : ElecState :=
    (sMid.connectedElectricalElements e).foldl (conductSeverStep e) st1' with hst2'
  rw [hconnMid, ← hL] at hst2'
  have h2 : (internalSetSwitchState e false sMid).1
      = { st2' with hasSwitchBeenToggledInStep := true } := by
    unfold internalSetSwitchState
    rw [if_neg hb2]
    rfl
  rw [h1, h2]
  have hcc1' : st1'.conductingConnectedElectricalElements
      = sMid.conductingConnectedElectricalElements := rfl
  have hfilter' : L.filter st1'.conductsElectricity = L.filter st.conductsElectricity := by
    rw [hcfin]
  constructor
  · show st2'.conductingConnectedElectricalElements = _
    funext a
    by_cases hae : a = e
    · rw [hae, hst2', severFold_cc_self e L st1' he, hcc1', hfilter', hccMid_e,
        foldl_erase_self _ (hnd.filter _), hccnil]
    · by_cases haL : a ∈ L
      · cases hca : st.conductsElectricity a with
        | true =>
          have hca1 : st1'.conductsElectricity a = true := by
            rw [hcfin]
            exact hca
          rw [hst2', severFold_cc_mem e L st1' he hnd haL hca1, hcc1',
            hccMid_mem a haL hca,
            List.erase_append_right _ (hnotecc a), List.erase_cons_head]
          simp
        | false =>
          have hca1 : st1'.conductsElectricity a = false := by
            rw [hcfin]
            exact hca
          rw [hst2', severFold_cc_mem_noncond e L st1' he hnd haL hca1, hcc1',
            hccMid_memnc a haL hca]
      · rw [hst2', severFold_cc_notmem e L st1' haL hae, hcc1', hccMid_nm a haL hae]
  · show st2'.conductsElectricity = _
    rw [hst2', severFold_conducts, hcfin]

theorem pairElecState_wf : ElecWf pairElecState := by
  constructor
  · intro a b
    rcases a with _ | _ | a <;> rcases b with _ | _ | b <;> simp [pairElecState]
  · intro a
    rcases a with _ | _ | a <;> simp [pairElecState]
  · intro a
    rcases a with _ | _ | a <;> simp [pairElecState]
  · intro a b
    rcases a with _ | _ | a <;> rcases b with _ | _ | b <;> simp [pairElecState]
  · intro a
    simp [pairElecState]

/-- Witness for C2: the invariant evaluated on the concrete two-element
network, reachable as a build-time state. -/
theorem conductingNeighbors_symmetric_witness :
    (∀ a b, b ∈ pairElecState.conductingConnectedElectricalElements a
      ↔ a ∈ pairElecState.conductingConnectedElectricalElements b)
    ∧ (∀ a b, b ∈ pairElecState.conductingConnectedElectricalElements a
      → pairElecState.conductsElectricity a = true
        ∧ pairElecState.conductsElectricity b = true)
    ∧ (∀ a, pairElecState.conductsElectricity a = false
      → pairElecState.conductingConnectedElectricalElements a = []) :=
  conductingNeighbors_symmetric_of_reachable
    (ElecReachable.init pairElecState pairElecState_wf)

/-- Witness for C4: the ON/OFF round-trip on element 0 of the two-element
network. -/
theorem setConductivity_toggle_roundtrip_witness :
    (internalSetSwitchState 0 false
        (internalSetSwitchState 0 true pairElecState).1).1.conductingConnectedElectricalElements
      = pairElecState.conductingConnectedElectricalElements
    ∧ (internalSetSwitchState 0 false
        (internalSetSwitchState 0 true pairElecState).1).1.conductsElectricity
      = pairElecState.conductsElectricity :=
  setConductivity_toggle_roundtrip pairElecState_wf (by rfl)

/-! ### Water-sensing switch hysteresis (C7) -/

theorem conductConnectStep_isDeleted (e : ℕ) (s : ElecState) (o : ℕ) :
    (conductConnectStep e s o).isDeleted = s.isDeleted := by
  unfold conductConnectStep
  split <;> rfl

theorem conductSeverStep_isDeleted (e : ℕ) (s : ElecState) (o : ℕ) :
    (conductSeverStep e s o).isDeleted = s.isDeleted := by
  unfold conductSeverStep
  split <;> rfl

theorem conductConnectStep_material (e : ℕ) (s : ElecState) (o : ℕ) :
    (conductConnectStep e s o).materialConductsElectricity
      = s.materialConductsElectricity := by
  unfold conductConnectStep
  split <;> rfl

theorem conductSeverStep_material (e : ℕ) (s : ElecState) (o : ℕ) :
    (conductSeverStep e s o).materialConductsElectricity
      = s.materialConductsElectricity := by
  unfold conductSeverStep
  split <;> rfl

theorem conductConnectStep_autoElems (e : ℕ) (s : ElecState) (o : ℕ) :
    (conductConnectStep e s o).automaticConductivityTogglingElements
      = s.automaticConductivityTogglingElements := by
  unfold conductConnectStep
  split <;> rfl

theorem conductSeverStep_autoElems (e : ℕ) (s : ElecState) (o : ℕ) :
    (conductSeverStep e s o).automaticConductivityTogglingElements
      = s.automaticConductivityTogglingElements := by
  unfold conductSeverStep
  split <;> rfl

theorem connectFold_isDeleted (e : ℕ) (L : List ℕ) (s : ElecState) :
    (L.foldl (conductConnectStep e) s).isDeleted = s.isDeleted := by
  induction L generalizing s with
  | nil => rfl
  | cons o R ih => rw [List.foldl_cons, ih, conductConnectStep_isDeleted]

theorem severFold_isDeleted (e : ℕ) (L : List ℕ) (s : ElecState) :
    (L.foldl (conductSeverStep e) s).isDeleted = s.isDeleted := by
  induction L generalizing s with
  | nil => rfl
  | cons o R ih => rw [List.foldl_cons, ih, conductSeverStep_isDeleted]

theorem connectFold_material (e : ℕ) (L : List ℕ) (s : ElecState) :
    (L.foldl (conductConnectStep e) s).materialConductsElectricity
      = s.materialConductsElectricity := by
  induction L generalizing s with
  | nil => rfl
  | cons o R ih => rw [List.foldl_cons, ih, conductConnectStep_material]

theorem severFold_material (e : ℕ) (L : List ℕ) (s : ElecState) :
    (L.foldl (conductSeverStep e) s).materialConductsElectricity
      = s.materialConductsElectricity := by
  induction L generalizing s with
  | nil => rfl
  | cons o R ih => rw [List.foldl_cons, ih, conductSeverStep_material]

theorem connectFold_autoElems (e : ℕ) (L : List ℕ) (s : ElecState) :
    (L.foldl (conductConnectStep e) s).automaticConductivityTogglingElements
      = s.automaticConductivityTogglingElements := by
  induction L generalizing s with
  | nil => rfl
  | cons o R ih => rw [List.foldl_cons, ih, conductConnectStep_autoElems]

theorem severFold_autoElems (e : ℕ) (L : List ℕ) (s : ElecState) :
    (L.foldl (conductSeverStep e) s).automaticConductivityTogglingElements
      = s.automaticConductivityTogglingElements := by
  induction L generalizing s with
  | nil => rfl
  | cons o R ih => rw [List.foldl_cons, ih, conductSeverStep_autoElems]

theorem internalSetSwitchState_isDeleted (e : ℕ) (b : Bool) (st : ElecState) :
    (internalSetSwitchState e b st).1.isDeleted = st.isDeleted := by
  unfold internalSetSwitchState
  by_cases hb : b = st.conductsElectricity e
  · rw [if_pos hb]
  · rw [if_neg hb]
    cases b
    · show (List.foldl (conductSeverStep e) _ _).isDeleted = st.isDeleted
      rw [severFold_isDeleted]
    · show (List.foldl (conductConnectStep e) _ _).isDeleted = st.isDeleted
      rw [connectFold_isDeleted]

theorem internalSetSwitchState_material (e : ℕ) (b : Bool) (st : ElecState) :
    (internalSetSwitchState e b st).1.materialConductsElectricity
      = st.materialConductsElectricity := by
  unfold internalSetSwitchState
  by_cases hb : b = st.conductsElectricity e
  · rw [if_pos hb]
  · rw [if_neg hb]
    cases b
    · show (List.foldl (conductSeverStep e) _ _).materialConductsElectricity = _
      rw [severFold_material]
    · show (List.foldl (conductConnectStep e) _ _).materialConductsElectricity = _
      rw [connectFold_material]

theorem internalSetSwitchState_autoElems (e : ℕ) (b : Bool) (st : ElecState) :
    (internalSetSwitchState e b st).1.automaticConductivityTogglingElements
      = st.automaticConductivityTogglingElements := by
  unfold internalSetSwitchState
  by_cases hb : b = st.conductsElectricity e
  · rw [if_pos hb]
  · rw [if_neg hb]
    cases b
    · show (List.foldl (conductSeverStep e) _ _).automaticConductivityTogglingElements = _
      rw [severFold_autoElems]
    · show (List.foldl (conductConnectStep e) _ _).automaticConductivityTogglingElements = _
      rw [connectFold_autoElems]

theorem internalSetSwitchState_conducts (e : ℕ) (b : Bool) (st : ElecState)
    (hb : ¬ b = st.conductsElectricity e) :
    (internalSetSwitchState e b st).1.conductsElectricity
      = updFn st.conductsElectricity e b := by
  unfold internalSetSwitchState
  rw [if_neg hb]
  cases b
  · show (List.foldl (conductSeverStep e) _ _).conductsElectricity = _
    rw [severFold_conducts]
  · show (List.foldl (conductConnectStep e) _ _).conductsElectricity = _
    rw [connectFold_conducts]

theorem internalSetSwitchState_events (e : ℕ) (b : Bool) (st : ElecState) :
    (internalSetSwitchState e b st).2
      = if b = st.conductsElectricity e then []
        else [ElecEvent.switchToggled e b] := by
  unfold internalSetSwitchState
  by_cases hb : b = st.conductsElectricity e
  · rw [if_pos hb, if_pos hb]
  · rw [if_neg hb, if_neg hb]

/-- A matching water-sensing switch does not toggle while water is below
the high watermark. -/
theorem updateAuto_single_noToggle_matching {st : ElecState} {e : ℕ}
    (hA : st.automaticConductivityTogglingElements = [e])
    (hdel : st.isDeleted e = false)
    (hmatch : st.conductsElectricity e = st.materialConductsElectricity e)
    {w : ℚ} (hw : w < waterHighWatermark) :
    updateAutomaticConductivityToggles st (mkWaterPts w) = (st, []) := by
  unfold updateAutomaticConductivityToggles
  rw [hA]
  show autoConductivityStep (mkWaterPts w) (st, []) e = (st, [])
  unfold autoConductivityStep
  rw [if_neg (by rw [hdel]; simp)]
  rw [if_neg ?hc1, if_neg ?hc2]
  case hc1 =>
    rintro ⟨-, hge⟩
    exact absurd hge (not_le.mpr hw)
  case hc2 =>
    rintro ⟨hne, -⟩
    exact hne hmatch

/-- A matching water-sensing switch flips to the inverse of its material
default once water reaches the high watermark. -/
theorem updateAuto_single_toggleHigh {st : ElecState} {e : ℕ}
    (hA : st.automaticConductivityTogglingElements = [e])
    (hdel : st.isDeleted e = false)
    (hmatch : st.conductsElectricity e = st.materialConductsElectricity e)
    {w : ℚ} (hw : waterHighWatermark ≤ w) :
    updateAutomaticConductivityToggles st (mkWaterPts w)
      = ((internalSetSwitchState e (!(st.materialConductsElectricity e)) st).1,
          [ElecEvent.switchToggled e (!(st.materialConductsElectricity e))]) := by
  unfold updateAutomaticConductivityToggles
  rw [hA]
  show autoConductivityStep (mkWaterPts w) (st, []) e = _
  unfold autoConductivityStep
  rw [if_neg (by rw [hdel]; simp)]
  rw [if_pos ⟨hmatch, hw⟩]
  have hev : (internalSetSwitchState e (!(st.materialConductsElectricity e)) st).2
      = [ElecEvent.switchToggled e (!(st.materialConductsElectricity e))] := by
    rw [internalSetSwitchState_events,
      if_neg (by rw [← hmatch]; exact (Bool.not_ne_self _))]
  dsimp only
  rw [hev]
  rfl

/-- An inverted water-sensing switch does not toggle while water is above
the low watermark. -/
theorem updateAuto_single_noToggle_inverted {st : ElecState} {e : ℕ}
    (hA : st.automaticConductivityTogglingElements = [e])
    (hdel : st.isDeleted e = false)
    (hinv : st.conductsElectricity e ≠ st.materialConductsElectricity e)
    {w : ℚ} (hw : waterLowWatermark < w) :
    updateAutomaticConductivityToggles st (mkWaterPts w) = (st, []) := by
  unfold updateAutomaticConductivityToggles
  rw [hA]
  show autoConductivityStep (mkWaterPts w) (st, []) e = (st, [])
  unfold autoConductivityStep
  rw [if_neg (by rw [hdel]; simp)]
  rw [if_neg ?hc1, if_neg ?hc2]
  case hc1 =>
    rintro ⟨heq, -⟩
    exact hinv heq
  case hc2 =>
    rintro ⟨-, hle⟩
    exact absurd hle (not_le.mpr hw)

/-- An inverted water-sensing switch flips back to its material default once
water falls to the low watermark. -/
theorem updateAuto_single_toggleLow {st : ElecState} {e : ℕ}
    (hA : st.automaticConductivityTogglingElements = [e])
    (hdel : st.isDeleted e = false)
    (hinv : st.conductsElectricity e ≠ st.materialConductsElectricity e)
    {w : ℚ} (hw : w ≤ waterLowWatermark) :
    updateAutomaticConductivityToggles st (mkWaterPts w)
      = ((internalSetSwitchState e (st.materialConductsElectricity e) st).1,
          [ElecEvent.switchToggled e (st.materialConductsElectricity e)]) := by
  unfold updateAutomaticConductivityToggles
  rw [hA]
  show autoConductivityStep (mkWaterPts w) (st, []) e = _
  unfold autoConductivityStep
  rw [if_neg (by rw [hdel]; simp)]
  rw [if_neg (by rintro ⟨heq, -⟩; exact hinv heq)]
  rw [if_pos ⟨hinv, hw⟩]
  have hev : (internalSetSwitchState e (st.materialConductsElectricity e) st).2
      = [ElecEvent.switchToggled e (st.materialConductsElectricity e)] := by
    rw [internalSetSwitchState_events, if_neg (fun h => hinv h.symm)]
  dsimp only
  rw [hev]
  rfl

/-- While the switch matches its default and water stays below the high
watermark, no step toggles and the state is untouched. -/
theorem autoToggleRun_matching_seg {e : ℕ} (A : List ℚ) {st : ElecState}
    (hA : st.automaticConductivityTogglingElements = [e])
    (hdel : st.isDeleted e = false)
    (hmatch : st.conductsElectricity e = st.materialConductsElectricity e)
    (hws : ∀ w ∈ A, w < waterHighWatermark) :
    autoToggleRun st A = (st, List.replicate A.length false) := by
  induction A with
  | nil => rfl
  | cons w ws ih =>
    unfold autoToggleRun
    rw [updateAuto_single_noToggle_matching hA hdel hmatch
      (hws w (List.mem_cons_self w ws))]
    dsimp only
    rw [ih fun v hv => hws v (List.mem_cons_of_mem w hv)]
    rfl

/-- While the switch is inverted and water stays above the low watermark,
no step toggles and the state is untouched. -/
theorem autoToggleRun_inverted_seg {e : ℕ} (C : List ℚ) {st : ElecState}
    (hA : st.automaticConductivityTogglingElements = [e])
    (hdel : st.isDeleted e = false)
    (hinv : st.conductsElectricity e ≠ st.materialConductsElectricity e)
    (hws : ∀ w ∈ C, waterLowWatermark < w) :
    autoToggleRun st C = (st, List.replicate C.length false) := by
  induction C with
  | nil => rfl
  | cons w ws ih =>
    unfold autoToggleRun
    rw [updateAuto_single_noToggle_inverted hA hdel hinv
      (hws w (List.mem_cons_self w ws))]
    dsimp only
    rw [ih fun v hv => hws v (List.mem_cons_of_mem w hv)]
    rfl

theorem autoToggleRun_cons (st : ElecState) (w : ℚ) (ws : List ℚ) :
    autoToggleRun st (w :: ws)
      = ((autoToggleRun (updateAutomaticConductivityToggles st (mkWaterPts w)).1 ws).1,
          (!(updateAutomaticConductivityToggles st (mkWaterPts w)).2.isEmpty)
            :: (autoToggleRun (updateAutomaticConductivityToggles st (mkWaterPts w)).1 ws).2) :=
  rfl

theorem autoToggleRun_append (xs ys : List ℚ) (st : ElecState) :
    autoToggleRun st (xs ++ ys)
      = ((autoToggleRun (autoToggleRun st xs).1 ys).1,
          (autoToggleRun st xs).2 ++ (autoToggleRun (autoToggleRun st xs).1 ys).2) := by
  induction xs generalizing st with
  | nil => rfl
  | cons x xs ih =>
    rw [List.cons_append, autoToggleRun_cons, ih, autoToggleRun_cons]
    rfl

/-- **C7.** Water-switch hysteresis.  For a non-deleted water-sensing switch
whose conductivity matches its material default, a water trace consisting
of readings below the 0.45 high watermark, then a first reading at or above
it, then readings above the 0.15 low watermark, then a first reading at or
below it, then readings below the high watermark (the shape taken by a
water fraction rising from 0.0 to 0.5 and falling back to 0.0) toggles the
switch's conductivity exactly twice: at the first high-watermark step and
at the first later low-watermark step, and at no other step. -/
theorem waterSwitch_hysteresis_toggles_twice {e : ℕ} {st : ElecState}
    (hA : st.automaticConductivityTogglingElements = [e])
    (hdel : st.isDeleted e = false)
    (hmatch : st.conductsElectricity e = st.materialConductsElectricity e)
    (A C E : List ℚ) (b d : ℚ)
    (hApre : ∀ w ∈ A, w < waterHighWatermark)
    (hb : waterHighWatermark ≤ b)
    (hC : ∀ w ∈ C, waterLowWatermark < w)
    (hd : d ≤ waterLowWatermark)
    (hE : ∀ w ∈ E, w < waterHighWatermark) :
    (autoToggleRun st (A ++ (b :: (C ++ (d :: E))))).2
      = List.replicate A.length false
          ++ true :: (List.replicate C.length false
          ++ true :: List.replicate E.length false)
    ∧ ((autoToggleRun st (A ++ (b :: (C ++ (d :: E))))).2.count true = 2) := by
  have hrun :
      (autoToggleRun st (A ++ (b :: (C ++ (d :: E))))).2
        = List.replicate A.length false
            ++ true :: (List.replicate C.length false
            ++ true :: List.replicate E.length false) := by
    rw [autoToggleRun_append A (b :: (C ++ (d :: E))) st,
      autoToggleRun_matching_seg A hA hdel hmatch hApre]
    dsimp only
    rw [autoToggleRun_cons st b (C ++ (d :: E)),
      updateAuto_single_toggleHigh hA hdel hmatch hb]
    dsimp only
    set stb : ElecState :=
      (internalSetSwitchState e (!(st.materialConductsElectricity e)) st).1 with hstb
    have hAb : stb.automaticConductivityTogglingElements = [e] := by
      rw [hstb, internalSetSwitchState_autoElems, hA]
    have hdelb : stb.isDeleted e = false := by
      rw [hstb, internalSetSwitchState_isDeleted, hdel]
    have hmatb : stb.materialConductsElectricity = st.materialConductsElectricity := by
      rw [hstb, internalSetSwitchState_material]
    have hcondb : stb.conductsElectricity e = !(st.materialConductsElectricity e) := by
      rw [hstb, internalSetSwitchState_conducts e _ st
        (by rw [← hmatch]; exact Bool.not_ne_self _), updFn_same]
    have hinvb : stb.conductsElectricity e ≠ stb.materialConductsElectricity e := by
      rw [hcondb, hmatb]
      exact Bool.not_ne_self _
    rw [autoToggleRun_append C (d :: E) stb,
      autoToggleRun_inverted_seg C hAb hdelb hinvb hC]
    dsimp only
    rw [autoToggleRun_cons stb d E,
      updateAuto_single_toggleLow hAb hdelb hinvb hd]
    dsimp only
    set std : ElecState :=
      (internalSetSwitchState e (stb.materialConductsElectricity e) stb).1 with hstd
    have hAd : std.automaticConductivityTogglingElements = [e] := by
      rw [hstd, internalSetSwitchState_autoElems, hAb]
    have hdeld : std.isDeleted e = false := by
      rw [hstd, internalSetSwitchState_isDeleted, hdelb]
    have hmatd : std.materialConductsElectricity = stb.materialConductsElectricity := by
      rw [hstd, internalSetSwitchState_material]
    have hcondd : std.conductsElectricity e = stb.materialConductsElectricity e := by
      rw [hstd, internalSetSwitchState_conducts e _ stb
        (fun h => hinvb h.symm), updFn_same]
    have hmatchd : std.conductsElectricity e = std.materialConductsElectricity e := by
      rw [hcondd, hmatd]
    rw [autoToggleRun_matching_seg E hAd hdeld hmatchd hE]
    rfl
  refine ⟨hrun, ?_⟩
  rw [hrun]
  simp [List.count_cons, List.count_replicate]

/-- Witness for C7: the concrete one-switch network run over the water trace
`[0, 1/2, 0]` (rise from 0.0 through the high watermark, fall back to 0.0):
it toggles exactly at steps 1 and 2. -/
theorem waterSwitch_hysteresis_witness :
    (autoToggleRun switchElecState
        ([(0 : ℚ)] ++ ((mkRat 1 2) :: ([] ++ ((0 : ℚ) :: []))))).2
      = List.replicate 1 false ++ true :: (List.replicate 0 false
          ++ true :: List.replicate 0 false)
    ∧ ((autoToggleRun switchElecState
        ([(0 : ℚ)] ++ ((mkRat 1 2) :: ([] ++ ((0 : ℚ) :: []))))).2.count true = 2) := by
  have h := @waterSwitch_hysteresis_toggles_twice 0 switchElecState
    rfl rfl rfl [(0 : ℚ)] [] [] (mkRat 1 2) 0
    (by intro w hw; rw [List.mem_singleton.mp hw]; decide)
    (by decide)
    (by intro w hw; cases hw)
    (by decide)
    (by intro w hw; cases hw)
  simpa using h

/-! ### Lamp state machine (C6) -/

/-- **C6.** A lamp in `LightOn` that is not self-powered and not powered this
step turns off: with the shared switch-toggle flag set it transitions
directly to `LightOff` with light 0 and no flicker notification; with the
flag clear it starts the flicker machine with light 0, choosing `FlickerA`
when the uniform draw `Choose(2)` is 0 and `FlickerB` otherwise (the two
outcomes of the uniform two-way choice). -/
theorem runLampStateMachine_lightOn_powerLoss
    (now : ℚ) (g stampL : ℕ) (lamp : LampState) (light w T mn mx : ℚ)
    (toggled under : Bool) (choice : ℕ) (u : ℚ)
    (hstate : lamp.state = LampStateType.LightOn)
    (hself : lamp.isSelfPowered = false)
    (hpow : g ≠ stampL) :
    (toggled = true →
      (runLampStateMachine now g stampL lamp light w T mn mx toggled under choice u).1.state
          = LampStateType.LightOff
        ∧ (runLampStateMachine now g stampL lamp light w T mn mx toggled under choice u).2.1 = 0
        ∧ (runLampStateMachine now g stampL lamp light w T mn mx toggled under choice u).2.2 = [])
    ∧ (toggled = false →
      (runLampStateMachine now g stampL lamp light w T mn mx toggled under choice u).2.1 = 0
        ∧ (runLampStateMachine now g stampL lamp light w T mn mx toggled under choice u).2.2 = []
        ∧ (choice = 0 →
          (runLampStateMachine now g stampL lamp light w T mn mx toggled under choice u).1.state
            = LampStateType.FlickerA)
        ∧ (choice ≠ 0 →
          (runLampStateMachine now g stampL lamp light w T mn mx toggled under choice u).1.state
            = LampStateType.FlickerB)) := by
  have hred : runLampStateMachine now g stampL lamp light w T mn mx toggled under choice u
      = runLampStateMachine.lampTurnOff lamp now toggled choice := by
    unfold runLampStateMachine
    rw [hstate]
    dsimp only
    rw [if_pos ⟨hpow, hself⟩]
  rw [hred]
  unfold runLampStateMachine.lampTurnOff
  constructor
  · intro ht
    rw [ht]
    dsimp only
    exact ⟨rfl, rfl, rfl⟩
  · intro ht
    rw [ht]
    dsimp only
    refine ⟨rfl, rfl, fun hc => ?_, fun hc => ?_⟩
    · show (if choice = 0 then LampStateType.FlickerA else LampStateType.FlickerB)
        = LampStateType.FlickerA
      rw [if_pos hc]
    · show (if choice = 0 then LampStateType.FlickerA else LampStateType.FlickerB)
        = LampStateType.FlickerB
      rw [if_neg hc]

/-- Witness for C6: a concrete unpowered, non-self-powered lamp in `LightOn`
with the toggle flag clear and draw 0. -/
theorem runLampStateMachine_lightOn_powerLoss_witness :
    ((true : Bool) = true →
      (runLampStateMachine 0 5 0 ⟨false, 0, LampStateType.LightOn, 0, 0, 0⟩
          1 0 20 0 100 true false 0 0).1.state = LampStateType.LightOff
        ∧ (runLampStateMachine 0 5 0 ⟨false, 0, LampStateType.LightOn, 0, 0, 0⟩
          1 0 20 0 100 true false 0 0).2.1 = 0
        ∧ (runLampStateMachine 0 5 0 ⟨false, 0, LampStateType.LightOn, 0, 0, 0⟩
          1 0 20 0 100 true false 0 0).2.2 = [])
    ∧ ((true : Bool) = false →
      (runLampStateMachine 0 5 0 ⟨false, 0, LampStateType.LightOn, 0, 0, 0⟩
          1 0 20 0 100 true false 0 0).2.1 = 0
        ∧ (runLampStateMachine 0 5 0 ⟨false, 0, LampStateType.LightOn, 0, 0, 0⟩
          1 0 20 0 100 true false 0 0).2.2 = []
        ∧ (0 = 0 →
          (runLampStateMachine 0 5 0 ⟨false, 0, LampStateType.LightOn, 0, 0, 0⟩
            1 0 20 0 100 true false 0 0).1.state = LampStateType.FlickerA)
        ∧ (0 ≠ 0 →
          (runLampStateMachine 0 5 0 ⟨false, 0, LampStateType.LightOn, 0, 0, 0⟩
            1 0 20 0 100 true false 0 0).1.state = LampStateType.FlickerB)) :=
  runLampStateMachine_lightOn_powerLoss 0 5 0
    ⟨false, 0, LampStateType.LightOn, 0, 0, 0⟩ 1 0 20 0 100 true false 0 0
    rfl rfl (by decide)

/-! ### Propagation: stamps, idempotence, probe events (C3, C9, C10) -/

theorem processSource_isDeleted (g : ℕ) (params : PropParams)
    (acc : ElecState × PointsState × List ElecEvent) (s : ℕ) :
    (processSource g params acc s).1.isDeleted = acc.1.isDeleted := by
  unfold processSource
  dsimp only
  repeat' split
  all_goals rfl

theorem processSource_sources (g : ℕ) (params : PropParams)
    (acc : ElecState × PointsState × List ElecEvent) (s : ℕ) :
    (processSource g params acc s).1.sources = acc.1.sources := by
  unfold processSource
  dsimp only
  repeat' split
  all_goals rfl

theorem processSource_instanceIndex (g : ℕ) (params : PropParams)
    (acc : ElecState × PointsState × List ElecEvent) (s : ℕ) :
    (processSource g params acc s).1.instanceIndex = acc.1.instanceIndex := by
  unfold processSource
  dsimp only
  repeat' split
  all_goals rfl

/-- The BFS flood never un-stamps: a cell already carrying the new
generation keeps it. -/
theorem floodLoop_mono (g : ℕ) (cc : ℕ → List ℕ) :
    ∀ (fuel : ℕ) (queue : List ℕ) (stamp : ℕ → ℕ) (x : ℕ),
      stamp x = g → floodLoop g cc fuel queue stamp x = g := by
  intro fuel
  induction fuel with
  | zero => intro queue stamp x hx; exact hx
  | succ n ih =>
    intro queue stamp x hx
    cases queue with
    | nil => exact hx
    | cons e rest =>
      show floodLoop g cc n _ _ x = g
      have hfold : ∀ (L : List ℕ) (acc : List ℕ × (ℕ → ℕ)), acc.2 x = g →
          (L.foldl (fun (acc : List ℕ × (ℕ → ℕ)) w =>
            if acc.2 w ≠ g then (acc.1 ++ [w], updFn acc.2 w g) else acc) acc).2 x = g := by
        intro L
        induction L with
        | nil => intro acc h; exact h
        | cons w R ihL =>
          intro acc h
          rw [List.foldl_cons]
          by_cases hw : acc.2 w ≠ g
          · rw [if_pos hw]
            refine ihL _ ?_
            show updFn acc.2 w g x = g
            by_cases hxw : x = w
            · rw [hxw, updFn_same]
            · rw [updFn_other _ _ _ hxw]
              exact h
          · rw [if_neg (by simpa using hw)]
            exact ihL _ h
      exact ih _ _ x (hfold (cc e) (rest, stamp) hx)

/-- Every stamp the BFS flood writes is the new generation value. -/
theorem floodLoop_writes (g : ℕ) (cc : ℕ → List ℕ) :
    ∀ (fuel : ℕ) (queue : List ℕ) (stamp : ℕ → ℕ) (x : ℕ),
      floodLoop g cc fuel queue stamp x = stamp x
        ∨ floodLoop g cc fuel queue stamp x = g := by
  intro fuel
  induction fuel with
  | zero => intro queue stamp x; exact Or.inl rfl
  | succ n ih =>
    intro queue stamp x
    cases queue with
    | nil => exact Or.inl rfl
    | cons e rest =>
      show floodLoop g cc n _ _ x = stamp x ∨ floodLoop g cc n _ _ x = g
      have hfold : ∀ (L : List ℕ) (acc : List ℕ × (ℕ → ℕ)),
          (L.foldl (fun (acc : List ℕ × (ℕ → ℕ)) w =>
            if acc.2 w ≠ g then (acc.1 ++ [w], updFn acc.2 w g) else acc) acc).2 x = acc.2 x
          ∨ (L.foldl (fun (acc : List ℕ × (ℕ → ℕ)) w =>
            if acc.2 w ≠ g then (acc.1 ++ [w], updFn acc.2 w g) else acc) acc).2 x = g := by
        intro L
        induction L with
        | nil => intro acc; exact Or.inl rfl
        | cons w R ihL =>
          intro acc
          rw [List.foldl_cons]
          by_cases hw : acc.2 w ≠ g
          · rw [if_pos hw]
            rcases ihL ((acc.1 ++ [w], updFn acc.2 w g)) with h | h
            · by_cases hxw : x = w
              · right
                rw [h, hxw]
                show updFn acc.2 w g w = g
                exact updFn_same _ _ _
              · left
                rw [h]
                show updFn acc.2 w g x = acc.2 x
                exact updFn_other _ _ _ hxw
            · right
              exact h
          · rw [if_neg (by simpa using hw)]
            exact ihL acc
      rcases ih _ _ x with h | h
      · rw [h]
        exact hfold (cc e) (rest, stamp)
      · right
        exact h

theorem processSource_stamp_mono (g : ℕ) (params : PropParams)
    (acc : ElecState × PointsState × List ElecEvent) (t x : ℕ)
    (hx : acc.1.currentConnectivityVisitSequenceNumber x = g) :
    (processSource g params acc t).1.currentConnectivityVisitSequenceNumber x = g := by
  have h1 : updFn acc.1.currentConnectivityVisitSequenceNumber t g x = g := by
    by_cases hxt : x = t
    · rw [hxt, updFn_same]
    · rw [updFn_other _ _ _ hxt]
      exact hx
  unfold processSource
  dsimp only
  repeat' split
  all_goals first
    | exact hx
    | exact h1
    | exact floodLoop_mono g _ _ _ _ x h1

theorem processSource_stamp_self (g : ℕ) (params : PropParams)
    (acc : ElecState × PointsState × List ElecEvent) (t : ℕ)
    (hdel : acc.1.isDeleted t = false) :
    (processSource g params acc t).1.currentConnectivityVisitSequenceNumber t = g := by
  have h1 : updFn acc.1.currentConnectivityVisitSequenceNumber t g t = g := updFn_same _ _ _
  unfold processSource
  dsimp only
  repeat' split
  all_goals first
    | (next hd => rw [hd] at hdel; cases hdel)
    | (next hg => exact hg.symm)
    | exact h1
    | exact floodLoop_mono g _ _ _ _ t h1

theorem propagateFold_stamp_mono (g : ℕ) (params : PropParams) (L : List ℕ) :
    ∀ (acc : ElecState × PointsState × List ElecEvent) (x : ℕ),
      acc.1.currentConnectivityVisitSequenceNumber x = g →
      (L.foldl (processSource g params) acc).1.currentConnectivityVisitSequenceNumber x = g := by
  induction L with
  | nil => intro acc x h; exact h
  | cons t R ih =>
    intro acc x h
    rw [List.foldl_cons]
    exact ih _ x (processSource_stamp_mono g params acc t x h)

theorem propagateFold_isDeleted (g : ℕ) (params : PropParams) (L : List ℕ)
    (acc : ElecState × PointsState × List ElecEvent) :
    (L.foldl (processSource g params) acc).1.isDeleted = acc.1.isDeleted := by
  induction L generalizing acc with
  | nil => rfl
  | cons t R ih => rw [List.foldl_cons, ih, processSource_isDeleted]

theorem propagateFold_sources (g : ℕ) (params : PropParams) (L : List ℕ)
    (acc : ElecState × PointsState × List ElecEvent) :
    (L.foldl (processSource g params) acc).1.sources = acc.1.sources := by
  induction L generalizing acc with
  | nil => rfl
  | cons t R ih => rw [List.foldl_cons, ih, processSource_sources]

/-- **C10.** During `UpdateSourcesAndPropagation`, every non-deleted source
is stamped with the new generation before its producing-current
preconditions are evaluated; consequently after the call every non-deleted
source — in particular a generator that is not producing current — carries
`VisitStamp = g` and reads as powered under the stamp predicate. -/
theorem updateSourcesAndPropagation_stamps_sources (g : ℕ) (st : ElecState)
    (pts : PointsState) (params : PropParams) :
    ∀ s ∈ st.sources, st.isDeleted s = false →
      (updateSourcesAndPropagation g st pts params).1.currentConnectivityVisitSequenceNumber s
        = g := by
  unfold updateSourcesAndPropagation
  have main : ∀ (L : List ℕ) (acc : ElecState × PointsState × List ElecEvent),
      acc.1.isDeleted = st.isDeleted →
      ∀ s ∈ L, st.isDeleted s = false →
        (L.foldl (processSource g params) acc).1.currentConnectivityVisitSequenceNumber s = g := by
    intro L
    induction L with
    | nil => intro acc _ s hs; cases hs
    | cons t R ih =>
      intro acc hdel s hs hsdel
      rw [List.foldl_cons]
      rcases List.mem_cons.mp hs with rfl | hsR
      · refine propagateFold_stamp_mono g params R _ s ?_
        refine processSource_stamp_self g params acc s ?_
        rw [hdel]
        exact hsdel
      · refine ih _ ?_ s hsR hsdel
        rw [processSource_isDeleted, hdel]
  exact main st.sources (st, pts, []) rfl

/-- A source iteration is a complete no-op when the source is deleted or
already stamped with the current generation. -/
theorem processSource_noop (g : ℕ) (params : PropParams)
    (acc : ElecState × PointsState × List ElecEvent) (t : ℕ)
    (h : acc.1.isDeleted t = true
      ∨ acc.1.currentConnectivityVisitSequenceNumber t = g) :
    processSource g params acc t = acc := by
  unfold processSource
  dsimp only
  by_cases hd : acc.1.isDeleted t = true
  · rw [if_pos hd]
  · rw [if_neg hd]
    rcases h with h | h
    · exact absurd h hd
    · rw [if_pos h.symm]

/-- **C3.** `UpdateSourcesAndPropagation` is idempotent at a fixed
generation: the second call with the same `g` returns the electrical state
and particle state of the first call unchanged — every visit stamp, every
conducting-neighbor list, every generator's producing-current flag and all
accumulated heat — and raises no notification. -/
theorem updateSourcesAndPropagation_idempotent (g : ℕ) (st : ElecState)
    (pts : PointsState) (params : PropParams) :
    updateSourcesAndPropagation g
        (updateSourcesAndPropagation g st pts params).1
        (updateSourcesAndPropagation g st pts params).2.1 params
      = ((updateSourcesAndPropagation g st pts params).1,
          (updateSourcesAndPropagation g st pts params).2.1, []) := by
  set r := updateSourcesAndPropagation g st pts params with hr
  have hsrc : r.1.sources = st.sources := by
    rw [hr]
    unfold updateSourcesAndPropagation
    exact propagateFold_sources g params st.sources (st, pts, [])
  have hdel : r.1.isDeleted = st.isDeleted := by
    rw [hr]
    unfold updateSourcesAndPropagation
    exact propagateFold_isDeleted g params st.sources (st, pts, [])
  have hstamped : ∀ s ∈ r.1.sources, r.1.isDeleted s = false →
      r.1.currentConnectivityVisitSequenceNumber s = g := by
    intro s hs hsdel
    rw [hr]
    refine updateSourcesAndPropagation_stamps_sources g st pts params s ?_ ?_
    · rw [← hsrc]
      exact hs
    · rw [← hdel]
      exact hsdel
  show r.1.sources.foldl (processSource g params) (r.1, r.2.1, []) = (r.1, r.2.1, [])
  have main : ∀ (L : List ℕ) (acc : ElecState × PointsState × List ElecEvent),
      (∀ s ∈ L, acc.1.isDeleted s = true
        ∨ acc.1.currentConnectivityVisitSequenceNumber s = g) →
      L.foldl (processSource g params) acc = acc := by
    intro L
    induction L with
    | nil => intro acc _; rfl
    | cons t R ih =>
      intro acc h
      rw [List.foldl_cons, processSource_noop g params acc t (h t (List.mem_cons_self t R))]
      exact ih acc fun s hs => h s (List.mem_cons_of_mem t hs)
  refine main r.1.sources (r.1, r.2.1, []) fun s hs => ?_
  by_cases hd : r.1.isDeleted s = true
  · exact Or.inl hd
  · right
    refine hstamped s hs ?_
    cases hds : r.1.isDeleted s with
    | true => exact absurd hds hd
    | false => rfl

/-- Witness for C10: the non-deleted generator of the one-generator network
is fully wet, hence stops producing, yet is stamped with the new
generation. -/
theorem updateSourcesAndPropagation_stamps_sources_witness :
    (updateSourcesAndPropagation 5 genElecStateNoInstance wetPts
        ⟨1, false⟩).1.currentConnectivityVisitSequenceNumber 0 = 5 :=
  updateSourcesAndPropagation_stamps_sources 5 genElecStateNoInstance wetPts
    ⟨1, false⟩ 0 (by decide) rfl

/-- The generator preconditions do not depend on the visit stamps. -/
theorem evaluateGeneratorPreconditions_stamp (st : ElecState) (f : ℕ → ℕ)
    (pts : PointsState) (s p : ℕ) :
    evaluateGeneratorPreconditions
        { st with currentConnectivityVisitSequenceNumber := f } pts s p
      = evaluateGeneratorPreconditions st pts s p := rfl

theorem processSource_flag_other (g : ℕ) (params : PropParams)
    (acc : ElecState × PointsState × List ElecEvent) (t s : ℕ) (hst : s ≠ t) :
    (processSource g params acc t).1.generatorIsProducingCurrent s
      = acc.1.generatorIsProducingCurrent s := by
  unfold processSource
  dsimp only
  repeat' split
  all_goals first
    | rfl
    | exact updFn_other _ _ _ hst

theorem processSource_events_mono (g : ℕ) (params : PropParams)
    (acc : ElecState × PointsState × List ElecEvent) (t : ℕ) (ev : ElecEvent)
    (hev : ev ∈ acc.2.2) : ev ∈ (processSource g params acc t).2.2 := by
  unfold processSource
  dsimp only
  repeat' split
  all_goals first
    | exact hev
    | exact List.mem_append_left _ hev

theorem processSource_flag_eq (g : ℕ) (params : PropParams)
    (acc : ElecState × PointsState × List ElecEvent) (t : ℕ)
    (h : acc.1.isDeleted t = true
      ∨ g = acc.1.currentConnectivityVisitSequenceNumber t
      ∨ acc.1.generatorIsProducingCurrent t
          = evaluateGeneratorPreconditions acc.1 acc.2.1 t (acc.1.pointIndex t)) :
    (processSource g params acc t).1.generatorIsProducingCurrent t
      = acc.1.generatorIsProducingCurrent t := by
  unfold processSource
  dsimp only
  by_cases hd : acc.1.isDeleted t = true
  · rw [if_pos hd]
  · rw [if_neg hd]
    by_cases hgs : g = acc.1.currentConnectivityVisitSequenceNumber t
    · rw [if_pos hgs]
    · rw [if_neg hgs]
      simp only [evaluateGeneratorPreconditions_stamp]
      rcases h with h | h | h
      · exact absurd h hd
      · exact absurd h hgs
      · have hch : ¬(acc.1.generatorIsProducingCurrent t
            ≠ evaluateGeneratorPreconditions acc.1 acc.2.1 t (acc.1.pointIndex t)) :=
          not_not_intro h
        rw [if_neg hch]
        split
        · rfl
        · rfl

theorem processSource_active_change (g : ℕ) (params : PropParams)
    (acc : ElecState × PointsState × List ElecEvent) (t : ℕ)
    (hdel : acc.1.isDeleted t = false)
    (hg : ¬ g = acc.1.currentConnectivityVisitSequenceNumber t)
    (hch : acc.1.generatorIsProducingCurrent t
      ≠ evaluateGeneratorPreconditions acc.1 acc.2.1 t (acc.1.pointIndex t))
    (hinst : acc.1.instanceIndex t ≠ Option.none) :
    (processSource g params acc t).1.generatorIsProducingCurrent t
        = evaluateGeneratorPreconditions acc.1 acc.2.1 t (acc.1.pointIndex t)
    ∧ ElecEvent.powerProbeToggled t
        (evaluateGeneratorPreconditions acc.1 acc.2.1 t (acc.1.pointIndex t))
      ∈ (processSource g params acc t).2.2 := by
  unfold processSource
  dsimp only
  rw [if_neg (by rw [hdel]; simp), if_neg hg]
  simp only [evaluateGeneratorPreconditions_stamp]
  have hcnd : acc.1.generatorIsProducingCurrent t
      ≠ evaluateGeneratorPreconditions acc.1 acc.2.1 t (acc.1.pointIndex t)
      ∧ acc.1.instanceIndex t ≠ Option.none := ⟨hch, hinst⟩
  rw [if_pos hch, if_pos hcnd]
  constructor
  · split
    · exact updFn_same _ _ _
    · exact updFn_same _ _ _
  · split
    · exact List.mem_append_right acc.2.2 (List.mem_singleton.mpr rfl)
    · exact List.mem_append_right acc.2.2 (List.mem_singleton.mpr rfl)

/-- **C9 (amended).** During propagation, every change of the
producing-current flag of a generator with a panel instance index fires a
"power probe toggled" notification carrying the new state.  (A generator
whose instance index is `None` changes state silently — see the
counterexample.) -/
theorem updateSourcesAndPropagation_probe_event (g : ℕ) (st : ElecState)
    (pts : PointsState) (params : PropParams) :
    ∀ s, st.instanceIndex s ≠ Option.none →
      (updateSourcesAndPropagation g st pts params).1.generatorIsProducingCurrent s
        ≠ st.generatorIsProducingCurrent s →
      ElecEvent.powerProbeToggled s
          ((updateSourcesAndPropagation g st pts params).1.generatorIsProducingCurrent s)
        ∈ (updateSourcesAndPropagation g st pts params).2.2 := by
  unfold updateSourcesAndPropagation
  have main : ∀ (L : List ℕ) (acc : ElecState × PointsState × List ElecEvent),
      acc.1.instanceIndex = st.instanceIndex →
      (∀ s, st.instanceIndex s ≠ Option.none →
        acc.1.generatorIsProducingCurrent s ≠ st.generatorIsProducingCurrent s →
        ElecEvent.powerProbeToggled s (acc.1.generatorIsProducingCurrent s) ∈ acc.2.2) →
      ∀ s, st.instanceIndex s ≠ Option.none →
        (L.foldl (processSource g params) acc).1.generatorIsProducingCurrent s
          ≠ st.generatorIsProducingCurrent s →
        ElecEvent.powerProbeToggled s
            ((L.foldl (processSource g params) acc).1.generatorIsProducingCurrent s)
          ∈ (L.foldl (processSource g params) acc).2.2 := by
    intro L
    induction L with
    | nil => intro acc _ hInv s hs hne; exact hInv s hs hne
    | cons t R ih =>
      intro acc hInst hInv
      rw [List.foldl_cons]
      refine ih _ ?_ ?_
      · rw [processSource_instanceIndex, hInst]
      · intro s hs hne
        by_cases hst : s = t
        · by_cases hd : acc.1.isDeleted t = true
          · have heq := processSource_flag_eq g params acc t (Or.inl hd)
            rw [hst, heq] at hne ⊢
            exact processSource_events_mono g params acc t _ (hInv t (hst ▸ hs) hne)
          · by_cases hgs : g = acc.1.currentConnectivityVisitSequenceNumber t
            · have heq := processSource_flag_eq g params acc t (Or.inr (Or.inl hgs))
              rw [hst, heq] at hne ⊢
              exact processSource_events_mono g params acc t _ (hInv t (hst ▸ hs) hne)
            · by_cases hch : acc.1.generatorIsProducingCurrent t
                  = evaluateGeneratorPreconditions acc.1 acc.2.1 t (acc.1.pointIndex t)
              · have heq := processSource_flag_eq g params acc t (Or.inr (Or.inr hch))
                rw [hst, heq] at hne ⊢
                exact processSource_events_mono g params acc t _ (hInv t (hst ▸ hs) hne)
              · have hinst' : acc.1.instanceIndex t ≠ Option.none := by
                  rw [hInst]
                  exact hst ▸ hs
                have hact := processSource_active_change g params acc t
                  (by cases hx : acc.1.isDeleted t with
                      | true => exact absurd hx hd
                      | false => rfl)
                  hgs hch hinst'
                rw [hst, hact.1]
                exact hact.2
        · rw [processSource_flag_other g params acc t s hst] at hne ⊢
          exact processSource_events_mono g params acc t _ (hInv s hs hne)
  exact main st.sources (st, pts, []) rfl (fun s _ hne => absurd rfl hne)

/-- Counterexample for C9 as stated: the wet, non-instanced generator's
producing-current flag changes from true to false during propagation, yet
no notification at all is raised. -/
theorem propagate_probe_event_counterexample :
    (updateSourcesAndPropagation 5 genElecStateNoInstance wetPts
        ⟨1, false⟩).1.generatorIsProducingCurrent 0 = false
    ∧ genElecStateNoInstance.generatorIsProducingCurrent 0 = true
    ∧ (updateSourcesAndPropagation 5 genElecStateNoInstance wetPts ⟨1, false⟩).2.2 = [] := by
  refine ⟨by decide, rfl, by decide⟩

/-- Witness for C9 (amended): the instanced wet generator's state change
fires the power-probe notification. -/
theorem updateSourcesAndPropagation_probe_event_witness :
    ElecEvent.powerProbeToggled 0
        ((updateSourcesAndPropagation 5 genElecStateInstanced wetPts
          ⟨1, false⟩).1.generatorIsProducingCurrent 0)
      ∈ (updateSourcesAndPropagation 5 genElecStateInstanced wetPts ⟨1, false⟩).2.2 :=
  updateSourcesAndPropagation_probe_event 5 genElecStateInstanced wetPts ⟨1, false⟩ 0
    (by decide) (by decide)

/-! ### Ephemeral slot allocator (C8) -/

theorem stepsToStart_pos (st : EphPoints) (p : ℕ)
    (hs : st.shipPointCount ≤ st.freeEphemeralParticleSearchStartIndex)
    (hp : p < st.allPointCount) : 1 ≤ stepsToStart st p := by
  unfold stepsToStart
  split <;> omega

theorem stepsToStart_start (st : EphPoints)
    (hs : st.shipPointCount ≤ st.freeEphemeralParticleSearchStartIndex)
    (he : st.freeEphemeralParticleSearchStartIndex < st.allPointCount) :
    stepsToStart st st.freeEphemeralParticleSearchStartIndex
      = st.allPointCount - st.shipPointCount := by
  unfold stepsToStart
  split <;> omega

theorem wrapNext_eq_start_of_one (st : EphPoints) (p : ℕ)
    (hs : st.shipPointCount ≤ st.freeEphemeralParticleSearchStartIndex)
    (he : st.freeEphemeralParticleSearchStartIndex < st.allPointCount)
    (hp1 : st.shipPointCount ≤ p) (hp2 : p < st.allPointCount)
    (h : stepsToStart st p = 1) : st.wrapNext p = st.freeEphemeralParticleSearchStartIndex := by
  unfold stepsToStart at h
  unfold EphPoints.wrapNext
  split at h <;> split <;> omega

theorem stepsToStart_step (st : EphPoints) (p : ℕ)
    (hs : st.shipPointCount ≤ st.freeEphemeralParticleSearchStartIndex)
    (he : st.freeEphemeralParticleSearchStartIndex < st.allPointCount)
    (hp1 : st.shipPointCount ≤ p) (hp2 : p < st.allPointCount)
    (h : 2 ≤ stepsToStart st p) :
    st.wrapNext p ≠ st.freeEphemeralParticleSearchStartIndex
    ∧ st.shipPointCount ≤ st.wrapNext p ∧ st.wrapNext p < st.allPointCount
    ∧ stepsToStart st (st.wrapNext p) = stepsToStart st p - 1 := by
  unfold stepsToStart at h ⊢
  unfold EphPoints.wrapNext
  refine ⟨?_, ?_, ?_, ?_⟩ <;> (split at h <;> split <;> try split) <;> omega

/-- The C++ scan loop, run for a full circuit, equals the list scan over
the visited positions. -/
theorem findFreeLoop_eq_scanFind (st : EphPoints) (t : ℚ)
    (hs : st.shipPointCount ≤ st.freeEphemeralParticleSearchStartIndex)
    (he : st.freeEphemeralParticleSearchStartIndex < st.allPointCount) :
    ∀ (k p : ℕ) (o : Option ℕ) (ol : ℚ), stepsToStart st p = k →
      st.shipPointCount ≤ p → p < st.allPointCount →
      findFreeLoop st t k p o ol = scanFind st t (posFrom st p k) o ol := by
  intro k
  induction k with
  | zero =>
    intro p o ol h hp1 hp2
    have := stepsToStart_pos st p hs hp2
    omega
  | succ n ih =>
    intro p o ol h hp1 hp2
    show findFreeLoop st t (n + 1) p o ol = scanFind st t (p :: posFrom st (st.wrapNext p) n) o ol
    unfold findFreeLoop scanFind
    by_cases hfree : st.ephemeralType p = EphemeralType.none
    · rw [if_pos hfree, if_pos hfree]
    · rw [if_neg hfree, if_neg hfree]
      dsimp only
      cases n with
      | zero =>
        have hwrap := wrapNext_eq_start_of_one st p hs he hp1 hp2 h
        rw [if_pos hwrap]
        rfl
      | succ m =>
        have hstep := stepsToStart_step st p hs he hp1 hp2 (by omega)
        rw [if_neg hstep.1]
        exact ih (st.wrapNext p) _ _ (by omega) hstep.2.1 hstep.2.2.1

/-- Scanning a fully-occupied position list never finds a free slot and
tracks a slot attaining the maximal lifetime (ties to the later-scanned
slot). -/
theorem scanFind_occupied (st : EphPoints) (t : ℚ) :
    ∀ (L : List ℕ) (o : Option ℕ) (ol : ℚ),
      (∀ p ∈ L, st.ephemeralType p ≠ EphemeralType.none) →
      (scanFind st t L o ol = (Option.none, o)
        ∧ ∀ p ∈ L, t - st.ephemeralStartTime p < ol)
      ∨ (∃ r ∈ L, scanFind st t L o ol = (Option.none, Option.some r)
          ∧ ol ≤ t - st.ephemeralStartTime r
          ∧ ∀ p ∈ L, t - st.ephemeralStartTime p ≤ t - st.ephemeralStartTime r) := by
  intro L
  induction L with
  | nil =>
    intro o ol _
    left
    exact ⟨rfl, fun p hp => absurd hp (List.not_mem_nil p)⟩
  | cons p ps ih =>
    intro o ol hocc
    have hoccp : st.ephemeralType p ≠ EphemeralType.none :=
      hocc p (List.mem_cons_self p ps)
    have hoccs : ∀ q ∈ ps, st.ephemeralType q ≠ EphemeralType.none :=
      fun q hq => hocc q (List.mem_cons_of_mem p hq)
    by_cases hge : t - st.ephemeralStartTime p ≥ ol
    · have hunf : scanFind st t (p :: ps) o ol
          = scanFind st t ps (Option.some p) (t - st.ephemeralStartTime p) := by
        conv_lhs => unfold scanFind
        rw [if_neg hoccp]
        dsimp only
        rw [if_pos hge]
      rw [hunf]
      rcases ih (Option.some p) (t - st.ephemeralStartTime p) hoccs with ⟨hscan, hall⟩ | ⟨r, hr, hscan, hol, hall⟩
      · right
        refine ⟨p, List.mem_cons_self p ps, hscan, hge, fun q hq => ?_⟩
        rcases List.mem_cons.mp hq with rfl | hq
        · exact le_refl _
        · exact le_of_lt (hall q hq)
      · right
        refine ⟨r, List.mem_cons_of_mem p hr, hscan, le_trans hge hol, fun q hq => ?_⟩
        rcases List.mem_cons.mp hq with rfl | hq
        · exact hol
        · exact hall q hq
    · have hunf : scanFind st t (p :: ps) o ol = scanFind st t ps o ol := by
        conv_lhs => unfold scanFind
        rw [if_neg hoccp]
        dsimp only
        rw [if_neg hge]
      rw [hunf]
      rcases ih o ol hoccs with ⟨hscan, hall⟩ | ⟨r, hr, hscan, hol, hall⟩
      · left
        refine ⟨hscan, fun q hq => ?_⟩
        rcases List.mem_cons.mp hq with rfl | hq
        · exact lt_of_not_ge hge
        · exact hall q hq
      · right
        refine ⟨r, List.mem_cons_of_mem p hr, hscan, hol, fun q hq => ?_⟩
        rcases List.mem_cons.mp hq with rfl | hq
        · exact le_trans (le_of_lt (lt_of_not_ge hge)) hol
        · exact hall q hq

theorem posFrom_no_wrap (st : EphPoints) :
    ∀ (k p : ℕ), p + k ≤ st.allPointCount → posFrom st p k = List.range' p k := by
  intro k
  induction k with
  | zero => intro p _; rfl
  | succ n ih =>
    intro p hp
    show p :: posFrom st (st.wrapNext p) n = _
    cases n with
    | zero => rfl
    | succ m =>
      have hlt : p + 1 < st.allPointCount := by omega
      have hwrap : st.wrapNext p = p + 1 := by
        unfold EphPoints.wrapNext
        rw [if_neg (by omega)]
      rw [hwrap, ih (p + 1) (by omega)]
      conv_rhs => rw [List.range'_succ]

theorem posFrom_split (st : EphPoints) (b : ℕ) :
    ∀ (a p : ℕ), p + (a + 1) = st.allPointCount →
      posFrom st p ((a + 1) + b) = List.range' p (a + 1) ++ posFrom st st.shipPointCount b := by
  intro a
  induction a with
  | zero =>
    intro p hp
    have hwrap : st.wrapNext p = st.shipPointCount := by
      unfold EphPoints.wrapNext
      rw [if_pos (by omega)]
    have h1 : posFrom st p (0 + 1 + b) = p :: posFrom st st.shipPointCount b := by
      rw [show (0 : ℕ) + 1 + b = b + 1 from by omega]
      rw [← hwrap]
      rfl
    rw [h1]
    conv_rhs => rw [List.range'_succ, List.range'_zero]
    rfl
  | succ m ih =>
    intro p hp
    have hwrap : st.wrapNext p = p + 1 := by
      unfold EphPoints.wrapNext
      rw [if_neg (by omega)]
    have h1 : posFrom st p (m + 1 + 1 + b) = p :: posFrom st (p + 1) (m + 1 + b) := by
      rw [show m + 1 + 1 + b = m + 1 + b + 1 from by omega]
      rw [← hwrap]
      rfl
    rw [h1, ih (p + 1) (by omega)]
    conv_rhs => rw [List.range'_succ]
    rfl

/-- The full circular scan starting at the cursor visits exactly the
ephemeral region. -/
theorem posFrom_start_mem (st : EphPoints)
    (hs : st.shipPointCount ≤ st.freeEphemeralParticleSearchStartIndex)
    (he : st.freeEphemeralParticleSearchStartIndex < st.allPointCount) (x : ℕ) :
    x ∈ posFrom st st.freeEphemeralParticleSearchStartIndex
        (st.allPointCount - st.shipPointCount)
      ↔ st.shipPointCount ≤ x ∧ x < st.allPointCount := by
  set s := st.freeEphemeralParticleSearchStartIndex with hsdef
  have hsplit := posFrom_split st (s - st.shipPointCount)
    (st.allPointCount - s - 1) s (by omega)
  have hregion : st.allPointCount - s - 1 + 1 + (s - st.shipPointCount)
      = st.allPointCount - st.shipPointCount := by omega
  rw [hregion] at hsplit
  rw [hsplit, posFrom_no_wrap st (s - st.shipPointCount) st.shipPointCount (by omega)]
  rw [List.mem_append, List.mem_range'_1, List.mem_range'_1]
  omega

theorem findFreeLoop_free_at (st : EphPoints) (t : ℚ) (k p : ℕ) (o : Option ℕ) (ol : ℚ)
    (hfree : st.ephemeralType p = EphemeralType.none) :
    findFreeLoop st t (k + 1) p o ol = (Option.some p, o) := by
  unfold findFreeLoop
  rw [if_pos hfree]

theorem findFreeEphemeralParticle_of_loop_some (st : EphPoints) (t : ℚ) (p : ℕ) (o : Option ℕ)
    (h : findFreeLoop st t (st.allPointCount - st.shipPointCount)
        st.freeEphemeralParticleSearchStartIndex Option.none 0 = (Option.some p, o)) :
    findFreeEphemeralParticle st t
      = (p, { st with freeEphemeralParticleSearchStartIndex := st.wrapNext p }) := by
  unfold findFreeEphemeralParticle
  rw [h]

theorem findFreeEphemeralParticle_of_loop_none (st : EphPoints) (t : ℚ) (r : ℕ)
    (h : findFreeLoop st t (st.allPointCount - st.shipPointCount)
        st.freeEphemeralParticleSearchStartIndex Option.none 0
        = (Option.none, Option.some r)) :
    findFreeEphemeralParticle st t
      = (r, { st with freeEphemeralParticleSearchStartIndex := st.wrapNext r }) := by
  unfold findFreeEphemeralParticle
  rw [h]
  rfl

/-- When every slot of the ephemeral region is occupied and at least one slot
started no later than the current time, the allocator returns a slot of
maximal lifetime and advances the cursor past it. -/
theorem findFree_steal (st : EphPoints) (t : ℚ)
    (hs : st.shipPointCount ≤ st.freeEphemeralParticleSearchStartIndex)
    (he : st.freeEphemeralParticleSearchStartIndex < st.allPointCount)
    (hocc : ∀ p, st.shipPointCount ≤ p → p < st.allPointCount →
      st.ephemeralType p ≠ EphemeralType.none)
    (hres : ∃ q, st.shipPointCount ≤ q ∧ q < st.allPointCount
      ∧ st.ephemeralStartTime q ≤ t) :
    ∃ r, st.shipPointCount ≤ r ∧ r < st.allPointCount
      ∧ (∀ p, st.shipPointCount ≤ p → p < st.allPointCount →
          t - st.ephemeralStartTime p ≤ t - st.ephemeralStartTime r)
      ∧ findFreeEphemeralParticle st t
          = (r, { st with freeEphemeralParticleSearchStartIndex := st.wrapNext r }) := by
  have hmem := posFrom_start_mem st hs he
  have hloop := findFreeLoop_eq_scanFind st t hs he
    (st.allPointCount - st.shipPointCount) st.freeEphemeralParticleSearchStartIndex
    Option.none 0 (stepsToStart_start st hs he) hs he
  have hoccL : ∀ p ∈ posFrom st st.freeEphemeralParticleSearchStartIndex
      (st.allPointCount - st.shipPointCount), st.ephemeralType p ≠ EphemeralType.none := by
    intro p hp
    exact hocc p ((hmem p).mp hp).1 ((hmem p).mp hp).2
  rcases scanFind_occupied st t
      (posFrom st st.freeEphemeralParticleSearchStartIndex
        (st.allPointCount - st.shipPointCount)) Option.none 0 hoccL with
    ⟨_, hall⟩ | ⟨r, hr, hscan, _, hall⟩
  · obtain ⟨q, hq1, hq2, hq3⟩ := hres
    have := hall q ((hmem q).mpr ⟨hq1, hq2⟩)
    linarith
  · refine ⟨r, ((hmem r).mp hr).1, ((hmem r).mp hr).2, ?_, ?_⟩
    · intro p hp1 hp2
      exact hall p ((hmem p).mpr ⟨hp1, hp2⟩)
    · exact findFreeEphemeralParticle_of_loop_none st t r (hloop.trans hscan)

/-- Allocating one debris particle in a pool whose first `k` region slots are
filled takes slot `sp + k` and yields the pool with `k + 1` filled slots. -/
theorem filledState_step (sp ac : ℕ) (times : ℕ → ℚ) (k : ℕ) (st : EphPoints)
    (hF : FilledState sp ac times k st) (hk : sp + k < ac) :
    (createEphemeralParticleDebris st (times k)).1 = sp + k
    ∧ FilledState sp ac times (k + 1) (createEphemeralParticleDebris st (times k)).2 := by
  obtain ⟨h1, h2, h3, h4, h5⟩ := hF
  have hcur : st.freeEphemeralParticleSearchStartIndex = sp + k := by
    rw [h3, if_pos hk]
  have hfree : st.ephemeralType (sp + k) = EphemeralType.none :=
    h5 (sp + k) (le_refl _) hk
  have hfuel : st.allPointCount - st.shipPointCount
      = (st.allPointCount - st.shipPointCount - 1) + 1 := by
    rw [h1, h2]
    omega
  have hloop : findFreeLoop st (times k) (st.allPointCount - st.shipPointCount)
      st.freeEphemeralParticleSearchStartIndex Option.none 0
      = (Option.some (sp + k), Option.none) := by
    rw [hfuel, hcur]
    exact findFreeLoop_free_at st (times k) _ (sp + k) _ _ hfree
  have hfp := findFreeEphemeralParticle_of_loop_some st (times k) (sp + k) Option.none hloop
  constructor
  · unfold createEphemeralParticleDebris
    dsimp only
    rw [hfp]
  · unfold createEphemeralParticleDebris
    dsimp only
    rw [hfp]
    unfold FilledState
    dsimp only
    refine ⟨h1, h2, ?_, ?_, ?_⟩
    · show st.wrapNext (sp + k) = _
      unfold EphPoints.wrapNext
      rw [h1, h2]
      split <;> split <;> omega
    · intro i hi
      by_cases hik : i = k
      · subst hik
        exact ⟨updFn_same _ _ _, updFn_same _ _ _⟩
      · have hne : sp + i ≠ sp + k := by omega
        have hi' : i < k := by omega
        rw [updFn_other _ _ _ hne, updFn_other _ _ _ hne]
        exact h4 i hi'
    · intro p hp1 hp2
      have hne : p ≠ sp + k := by omega
      rw [updFn_other _ _ _ hne]
      exact h5 p (by omega) hp2

theorem allocRun_append (st : EphPoints) (ts : List ℚ) (r : ℚ) :
    allocRun st (ts ++ [r]) = (createEphemeralParticleDebris (allocRun st ts) r).2 := by
  unfold allocRun
  rw [List.foldl_append]
  rfl

/-- Filling an initially all-free pool: after `k ≤ N` debris allocations the
pool is in the canonical `k`-filled state. -/
theorem allocRun_filled (sp ac : ℕ) (times : ℕ → ℚ) (st0 : EphPoints)
    (h0 : FilledState sp ac times 0 st0) :
    ∀ k, sp + k ≤ ac → FilledState sp ac times k (allocRun st0 ((List.range k).map times)) := by
  intro k
  induction k with
  | zero =>
    intro _
    exact h0
  | succ n ih =>
    intro hk
    have hstep := filledState_step sp ac times n (allocRun st0 ((List.range n).map times))
      (ih (by omega)) (by omega)
    have hlist : (List.range (n + 1)).map times
        = (List.range n).map times ++ [times n] := by
      rw [List.range_succ, List.map_append]
      rfl
    rw [hlist, allocRun_append]
    exact hstep.2

/-- The full eviction scenario: fill a pool of size `ac - sp` with debris at
strictly increasing times, then allocate once more; the extra allocation
returns the region slot with the smallest start time, namely slot `sp`. -/
theorem steal_scenario (sp ac : ℕ) (times : ℕ → ℚ) (st0 : EphPoints)
    (h0 : FilledState sp ac times 0 st0) (hlt : sp < ac) (hmono : StrictMono times) :
    (findFreeEphemeralParticle (allocRun st0 ((List.range (ac - sp)).map times))
        (times (ac - sp))).1 = sp
    ∧ (allocRun st0 ((List.range (ac - sp)).map times)).ephemeralStartTime sp = times 0
    ∧ ∀ p, sp ≤ p → p < ac →
        times 0 ≤ (allocRun st0 ((List.range (ac - sp)).map times)).ephemeralStartTime p := by
  have hN := allocRun_filled sp ac times st0 h0 (ac - sp) (by omega)
  set stN := allocRun st0 ((List.range (ac - sp)).map times) with hstN
  obtain ⟨h1, h2, h3, h4, h5⟩ := hN
  have hcur : stN.freeEphemeralParticleSearchStartIndex = sp := by
    rw [h3, if_neg (by omega)]
  have htype : ∀ p, sp ≤ p → p < ac → stN.ephemeralType p = EphemeralType.debris := by
    intro p hp1 hp2
    have hpe : p = sp + (p - sp) := by omega
    rw [hpe]
    exact (h4 (p - sp) (by omega)).1
  have htime : ∀ p, sp ≤ p → p < ac → stN.ephemeralStartTime p = times (p - sp) := by
    intro p hp1 hp2
    have hpe : p = sp + (p - sp) := by omega
    conv_lhs => rw [hpe]
    exact (h4 (p - sp) (by omega)).2
  have hsp0 : stN.ephemeralStartTime sp = times 0 := by
    have h := htime sp (le_refl sp) (by omega)
    rwa [Nat.sub_self] at h
  have hmin : ∀ p, sp ≤ p → p < ac → times 0 ≤ stN.ephemeralStartTime p := by
    intro p hp1 hp2
    rw [htime p hp1 hp2]
    exact hmono.monotone (Nat.zero_le _)
  obtain ⟨r, hr1, hr2, hmax, hfp⟩ := findFree_steal stN (times (ac - sp))
    (by omega) (by omega)
    (by
      intro p hp1 hp2
      rw [htype p (by omega) (by omega)]
      decide)
    ⟨sp, by omega, by omega, by
      rw [hsp0]
      exact hmono.monotone (Nat.zero_le _)⟩
  have hrsp : r = sp := by
    by_contra hne
    have h0r : times 0 < times (r - sp) := hmono (by omega)
    have hle := hmax sp (by omega) (by omega)
    rw [hsp0, htime r (by omega) (by omega)] at hle
    linarith
  refine ⟨?_, hsp0, hmin⟩
  rw [hfp]
  exact hrsp

/-- **C8.** When `FindFreeEphemeralParticle` runs on a pool whose ephemeral
region has no free slot (and some slot started no later than now), it
returns a slot with the greatest `currentTime − StartTime` and advances the
search cursor past the returned slot, wrapping at the region end; and for a
pool of size `N = ac − sp`, after `N` debris allocations at strictly
increasing times the `(N+1)`-th allocation returns the slot with the
smallest start time, namely the first-allocated slot `sp`. -/
theorem findFreeEphemeralParticle_evicts_oldest :
    (∀ (st : EphPoints) (t : ℚ),
      st.shipPointCount ≤ st.freeEphemeralParticleSearchStartIndex →
      st.freeEphemeralParticleSearchStartIndex < st.allPointCount →
      (∀ p, st.shipPointCount ≤ p → p < st.allPointCount →
        st.ephemeralType p ≠ EphemeralType.none) →
      (∃ q, st.shipPointCount ≤ q ∧ q < st.allPointCount
        ∧ st.ephemeralStartTime q ≤ t) →
      ∃ r, st.shipPointCount ≤ r ∧ r < st.allPointCount
        ∧ (∀ p, st.shipPointCount ≤ p → p < st.allPointCount →
            t - st.ephemeralStartTime p ≤ t - st.ephemeralStartTime r)
        ∧ findFreeEphemeralParticle st t
            = (r, { st with freeEphemeralParticleSearchStartIndex := st.wrapNext r }))
    ∧ (∀ (sp ac : ℕ) (times : ℕ → ℚ) (st0 : EphPoints),
      FilledState sp ac times 0 st0 → sp < ac → StrictMono times →
      (findFreeEphemeralParticle (allocRun st0 ((List.range (ac - sp)).map times))
          (times (ac - sp))).1 = sp
      ∧ (allocRun st0 ((List.range (ac - sp)).map times)).ephemeralStartTime sp = times 0
      ∧ ∀ p, sp ≤ p → p < ac →
          times 0 ≤ (allocRun st0 ((List.range (ac - sp)).map times)).ephemeralStartTime p) :=
  ⟨fun st t hs he hocc hres => findFree_steal st t hs he hocc hres,
   fun sp ac times st0 h0 hlt hmono => steal_scenario sp ac times st0 h0 hlt hmono⟩

/-- Witness for C8: the eviction theorem applied to the concrete full pool
`ephFull` at time 5, and the fill-then-steal scenario on the all-free pool
`eph0` with times 0, 1, 2. -/
theorem findFreeEphemeralParticle_evicts_oldest_witness :
    (ephFull.shipPointCount ≤ ephFull.freeEphemeralParticleSearchStartIndex
      ∧ ephFull.freeEphemeralParticleSearchStartIndex < ephFull.allPointCount
      ∧ (∃ r, ephFull.shipPointCount ≤ r ∧ r < ephFull.allPointCount
          ∧ (∀ p, ephFull.shipPointCount ≤ p → p < ephFull.allPointCount →
              (5 : ℚ) - ephFull.ephemeralStartTime p ≤ (5 : ℚ) - ephFull.ephemeralStartTime r)
          ∧ findFreeEphemeralParticle ephFull 5
              = (r, { ephFull with
                  freeEphemeralParticleSearchStartIndex := ephFull.wrapNext r })))
    ∧ (FilledState 1 3 (fun i : ℕ => (i : ℚ)) 0 eph0
      ∧ (findFreeEphemeralParticle
            (allocRun eph0 ((List.range (3 - 1)).map (fun i : ℕ => (i : ℚ))))
            ((fun i : ℕ => (i : ℚ)) (3 - 1))).1 = 1) := by
  have hocc : ∀ p, ephFull.shipPointCount ≤ p → p < ephFull.allPointCount →
      ephFull.ephemeralType p ≠ EphemeralType.none :=
    fun p _ _ h => EphemeralType.noConfusion h
  have hres : ∃ q, ephFull.shipPointCount ≤ q ∧ q < ephFull.allPointCount
      ∧ ephFull.ephemeralStartTime q ≤ (5 : ℚ) :=
    ⟨1, by decide, by decide, by decide⟩
  have hF : FilledState 1 3 (fun i : ℕ => (i : ℚ)) 0 eph0 := by
    unfold FilledState
    refine ⟨rfl, rfl, by decide, ?_, ?_⟩
    · intro i hi
      exact absurd hi (Nat.not_lt_zero i)
    · intro p _ _
      rfl
  refine ⟨⟨by decide, by decide,
      findFreeEphemeralParticle_evicts_oldest.1 ephFull 5 (by decide) (by decide) hocc hres⟩,
    hF, (findFreeEphemeralParticle_evicts_oldest.2 1 3 (fun i : ℕ => (i : ℚ)) eph0 hF
      (by decide) Nat.strictMono_cast).1⟩

theorem reachVia_append (cc : ℕ → List ℕ) {a b : ℕ} {L1 : List ℕ}
    (h1 : ReachVia cc a L1 b) :
    ∀ {c : ℕ} {L2 : List ℕ}, ReachVia cc b L2 c → ReachVia cc a (L1 ++ L2) c := by
  induction h1 with
  | refl a =>
    intro c L2 h2
    exact h2
  | cons hb _ ih =>
    intro c L2 h2
    exact ReachVia.cons hb (ih h2)

theorem reach_refl (cc : ℕ → List ℕ) (a : ℕ) : Reach cc a a :=
  ⟨[], ReachVia.refl a⟩

theorem reach_step (cc : ℕ → List ℕ) {a b : ℕ} (h : b ∈ cc a) : Reach cc a b :=
  ⟨[b], ReachVia.cons h (ReachVia.refl b)⟩

theorem reach_trans (cc : ℕ → List ℕ) {a b c : ℕ} (h1 : Reach cc a b)
    (h2 : Reach cc b c) : Reach cc a c := by
  obtain ⟨L1, h1⟩ := h1
  obtain ⟨L2, h2⟩ := h2
  exact ⟨L1 ++ L2, reachVia_append cc h1 h2⟩

theorem reachVia_suffix (cc : ℕ → List ℕ) {a c : ℕ} {L : List ℕ}
    (h : ReachVia cc a L c) :
    ∀ (L1 : List ℕ) (b : ℕ) (L2 : List ℕ), L = L1 ++ b :: L2 → ReachVia cc b L2 c := by
  induction h with
  | refl a =>
    intro L1 b L2 he
    exact absurd he (by simp)
  | @cons a d c L hd hrest ih =>
    intro L1 b L2 he
    cases L1 with
    | nil =>
      injection he with h1 h2
      rw [← h1, ← h2]
      exact hrest
    | cons u L1' =>
      injection he with h1 h2
      exact ih L1' b L2 h2

theorem reachVia_mem (cc : ℕ → List ℕ) {a c : ℕ} {L : List ℕ}
    (h : ReachVia cc a L c) : ∀ v ∈ L, Reach cc a v := by
  induction h with
  | refl a =>
    intro v hv
    exact absurd hv (List.not_mem_nil v)
  | @cons a b c L hb _ ih =>
    intro v hv
    rcases List.mem_cons.mp hv with rfl | hv
    · exact reach_step cc hb
    · exact reach_trans cc (reach_step cc hb) (ih v hv)

theorem mem_last_split {a : ℕ} : ∀ {l : List ℕ}, a ∈ l →
    ∃ l1 l2, l = l1 ++ a :: l2 ∧ a ∉ l2 := by
  intro l
  induction l with
  | nil =>
    intro h
    exact absurd h (List.not_mem_nil a)
  | cons b l' ih =>
    intro h
    by_cases hal : a ∈ l'
    · obtain ⟨l1, l2, he, hni⟩ := ih hal
      exact ⟨b :: l1, l2, by rw [he]; rfl, hni⟩
    · have hab : a = b := by
        rcases List.mem_cons.mp h with h | h
        · exact h
        · exact absurd h hal
      exact ⟨[], l', by rw [hab]; rfl, hal⟩

theorem reachVia_shortcut (cc : ℕ → List ℕ) {s x : ℕ} {L : List ℕ}
    (h : ReachVia cc s L x) : ∃ L', ReachVia cc s L' x ∧ s ∉ L' := by
  by_cases hs : s ∈ L
  · obtain ⟨L1, L2, he, hni⟩ := mem_last_split hs
    exact ⟨L2, reachVia_suffix cc h L1 s L2 he, hni⟩
  · exact ⟨L, h, hs⟩

theorem floodFold_stamp (g : ℕ) :
    ∀ (L : List ℕ) (acc : List ℕ × (ℕ → ℕ)) (v : ℕ),
      ((L.foldl (fun (acc : List ℕ × (ℕ → ℕ)) w =>
          if acc.2 w ≠ g then (acc.1 ++ [w], updFn acc.2 w g) else acc) acc).2 v = g
        ↔ acc.2 v = g ∨ v ∈ L) := by
  intro L
  induction L with
  | nil =>
    intro acc v
    simp
  | cons w R ih =>
    intro acc v
    rw [List.foldl_cons]
    by_cases hw : acc.2 w ≠ g
    · rw [if_pos hw, ih (acc.1 ++ [w], updFn acc.2 w g) v]
      dsimp only
      constructor
      · intro h
        rcases h with h | h
        · by_cases hvw : v = w
          · right
            rw [hvw]
            exact List.mem_cons_self w R
          · rw [updFn_other _ _ _ hvw] at h
            exact Or.inl h
        · exact Or.inr (List.mem_cons_of_mem w h)
      · intro h
        rcases h with h | h
        · left
          by_cases hvw : v = w
          · rw [hvw]
            exact updFn_same _ _ _
          · rw [updFn_other _ _ _ hvw]
            exact h
        · rcases List.mem_cons.mp h with rfl | h
          · left
            exact updFn_same _ _ _
          · exact Or.inr h
    · rw [if_neg hw, ih acc v]
      have hwg : acc.2 w = g := not_not.mp hw
      constructor
      · intro h
        rcases h with h | h
        · exact Or.inl h
        · exact Or.inr (List.mem_cons_of_mem w h)
      · intro h
        rcases h with h | h
        · exact Or.inl h
        · rcases List.mem_cons.mp h with rfl | h
          · exact Or.inl hwg
          · exact Or.inr h

theorem floodFold_queue (g : ℕ) :
    ∀ (L : List ℕ) (acc : List ℕ × (ℕ → ℕ)) (v : ℕ),
      (v ∈ (L.foldl (fun (acc : List ℕ × (ℕ → ℕ)) w =>
          if acc.2 w ≠ g then (acc.1 ++ [w], updFn acc.2 w g) else acc) acc).1
        ↔ v ∈ acc.1 ∨ (v ∈ L ∧ acc.2 v ≠ g)) := by
  intro L
  induction L with
  | nil =>
    intro acc v
    simp
  | cons w R ih =>
    intro acc v
    rw [List.foldl_cons]
    by_cases hw : acc.2 w ≠ g
    · rw [if_pos hw, ih (acc.1 ++ [w], updFn acc.2 w g) v]
      dsimp only
      constructor
      · intro h
        rcases h with h | h
        · rcases List.mem_append.mp h with h | h
          · exact Or.inl h
          · have hvw : v = w := List.mem_singleton.mp h
            right
            refine ⟨by rw [hvw]; exact List.mem_cons_self w R, by rw [hvw]; exact hw⟩
        · obtain ⟨hR, hst⟩ := h
          have hvw : v ≠ w := by
            intro he
            rw [he, updFn_same] at hst
            exact hst rfl
          rw [updFn_other _ _ _ hvw] at hst
          exact Or.inr ⟨List.mem_cons_of_mem w hR, hst⟩
      · intro h
        rcases h with h | h
        · exact Or.inl (List.mem_append_left _ h)
        · obtain ⟨hmem, hst⟩ := h
          rcases List.mem_cons.mp hmem with rfl | hR
          · exact Or.inl (List.mem_append_right _ (List.mem_singleton.mpr rfl))
          · by_cases hvw : v = w
            · exact Or.inl (List.mem_append_right _
                (by rw [hvw]; exact List.mem_singleton.mpr rfl))
            · refine Or.inr ⟨hR, ?_⟩
              rw [updFn_other _ _ _ hvw]
              exact hst
    · rw [if_neg hw, ih acc v]
      have hwg : acc.2 w = g := not_not.mp hw
      constructor
      · intro h
        rcases h with h | h
        · exact Or.inl h
        · obtain ⟨hR, hst⟩ := h
          exact Or.inr ⟨List.mem_cons_of_mem w hR, hst⟩
      · intro h
        rcases h with h | h
        · exact Or.inl h
        · obtain ⟨hmem, hst⟩ := h
          rcases List.mem_cons.mp hmem with rfl | hR
          · exact absurd hwg hst
          · exact Or.inr ⟨hR, hst⟩

theorem unstamped_le (g n : ℕ) (stamp : ℕ → ℕ) : unstamped g n stamp ≤ n := by
  unfold unstamped
  calc ((Finset.range n).filter (fun v => stamp v ≠ g)).card
      ≤ (Finset.range n).card := Finset.card_filter_le _ _
    _ = n := Finset.card_range n

theorem unstamped_update (g n : ℕ) (stamp : ℕ → ℕ) (w : ℕ) (hw : w < n)
    (hs : stamp w ≠ g) :
    unstamped g n (updFn stamp w g) + 1 = unstamped g n stamp := by
  unfold unstamped
  have hmem : w ∈ (Finset.range n).filter (fun v => stamp v ≠ g) := by
    rw [Finset.mem_filter, Finset.mem_range]
    exact ⟨hw, hs⟩
  have hset : (Finset.range n).filter (fun v => updFn stamp w g v ≠ g)
      = ((Finset.range n).filter (fun v => stamp v ≠ g)).erase w := by
    ext v
    simp only [Finset.mem_erase, Finset.mem_filter, Finset.mem_range]
    constructor
    · intro h
      obtain ⟨h1, h2⟩ := h
      by_cases hvw : v = w
      · rw [hvw, updFn_same] at h2
        exact absurd rfl h2
      · rw [updFn_other _ _ _ hvw] at h2
        exact ⟨hvw, h1, h2⟩
    · intro h
      obtain ⟨hvw, h1, h2⟩ := h
      refine ⟨h1, ?_⟩
      rw [updFn_other _ _ _ hvw]
      exact h2
  rw [hset, Finset.card_erase_of_mem hmem]
  have hpos : 1 ≤ ((Finset.range n).filter (fun v => stamp v ≠ g)).card :=
    Finset.card_pos.mpr ⟨w, hmem⟩
  omega

theorem floodFold_measure (g n : ℕ) :
    ∀ (L : List ℕ) (acc : List ℕ × (ℕ → ℕ)),
      (∀ w ∈ L, w < n) →
      2 * unstamped g n (L.foldl (fun (acc : List ℕ × (ℕ → ℕ)) w =>
          if acc.2 w ≠ g then (acc.1 ++ [w], updFn acc.2 w g) else acc) acc).2
        + (L.foldl (fun (acc : List ℕ × (ℕ → ℕ)) w =>
          if acc.2 w ≠ g then (acc.1 ++ [w], updFn acc.2 w g) else acc) acc).1.length
      ≤ 2 * unstamped g n acc.2 + acc.1.length := by
  intro L
  induction L with
  | nil =>
    intro acc _
    exact le_refl _
  | cons w R ih =>
    intro acc hw
    rw [List.foldl_cons]
    by_cases hws : acc.2 w ≠ g
    · rw [if_pos hws]
      refine le_trans (ih _ (fun u hu => hw u (List.mem_cons_of_mem w hu))) ?_
      dsimp only
      rw [List.length_append, List.length_singleton]
      have hupd := unstamped_update g n acc.2 w (hw w (List.mem_cons_self w R)) hws
      omega
    · rw [if_neg hws]
      exact ih acc (fun u hu => hw u (List.mem_cons_of_mem w hu))

/-- Soundness of the BFS flood: every newly stamped element is reachable
along conducting edges from some queue element. -/
theorem floodLoop_sound (g : ℕ) (cc : ℕ → List ℕ) :
    ∀ (fuel : ℕ) (queue : List ℕ) (stamp : ℕ → ℕ) (x : ℕ),
      floodLoop g cc fuel queue stamp x = g →
      stamp x = g ∨ ∃ q ∈ queue, Reach cc q x := by
  intro fuel
  induction fuel with
  | zero =>
    intro queue stamp x h
    exact Or.inl h
  | succ n ih =>
    intro queue stamp x h
    cases queue with
    | nil => exact Or.inl h
    | cons e rest =>
      have h2 : floodLoop g cc n
          ((cc e).foldl (fun (acc : List ℕ × (ℕ → ℕ)) w =>
            if acc.2 w ≠ g then (acc.1 ++ [w], updFn acc.2 w g) else acc) (rest, stamp)).1
          ((cc e).foldl (fun (acc : List ℕ × (ℕ → ℕ)) w =>
            if acc.2 w ≠ g then (acc.1 ++ [w], updFn acc.2 w g) else acc) (rest, stamp)).2
          x = g := h
      rcases ih _ _ x h2 with hst | ⟨q, hq, hreach⟩
      · rcases (floodFold_stamp g (cc e) (rest, stamp) x).mp hst with hst | hccx
        · exact Or.inl hst
        · exact Or.inr ⟨e, List.mem_cons_self e rest, reach_step cc hccx⟩
      · rcases (floodFold_queue g (cc e) (rest, stamp) q).mp hq with hq | ⟨hqcc, _⟩
        · exact Or.inr ⟨q, List.mem_cons_of_mem e hq, hreach⟩
        · exact Or.inr ⟨e, List.mem_cons_self e rest,
            reach_trans cc (reach_step cc hqcc) hreach⟩

/-- Completeness of the BFS flood: given enough fuel, an element reachable
from a queue element along a path whose stamped vertices all sit in the
queue ends up stamped. -/
theorem floodLoop_complete (g : ℕ) (cc : ℕ → List ℕ) (n : ℕ)
    (hcc : ∀ v w, w ∈ cc v → w < n) :
    ∀ (fuel : ℕ) (queue : List ℕ) (stamp : ℕ → ℕ),
      (∀ p ∈ queue, stamp p = g) →
      2 * unstamped g n stamp + queue.length ≤ fuel →
      ∀ (q : ℕ) (L : List ℕ) (x : ℕ), q ∈ queue → ReachVia cc q L x →
        (∀ v ∈ L, stamp v = g → v ∈ queue) →
        floodLoop g cc fuel queue stamp x = g := by
  intro fuel
  induction fuel with
  | zero =>
    intro queue stamp _ hfuel q _ _ hq _ _
    have := List.length_pos.mpr (List.ne_nil_of_mem hq)
    omega
  | succ m ih =>
    intro queue stamp hH1 hfuel q L x hq hvia hcond
    cases queue with
    | nil => exact absurd hq (List.not_mem_nil q)
    | cons e rest =>
      have hstep : floodLoop g cc (m + 1) (e :: rest) stamp
          = floodLoop g cc m
            ((cc e).foldl (fun (acc : List ℕ × (ℕ → ℕ)) w =>
              if acc.2 w ≠ g then (acc.1 ++ [w], updFn acc.2 w g) else acc) (rest, stamp)).1
            ((cc e).foldl (fun (acc : List ℕ × (ℕ → ℕ)) w =>
              if acc.2 w ≠ g then (acc.1 ++ [w], updFn acc.2 w g) else acc)
              (rest, stamp)).2 := rfl
      rw [hstep]
      set next := (cc e).foldl (fun (acc : List ℕ × (ℕ → ℕ)) w =>
          if acc.2 w ≠ g then (acc.1 ++ [w], updFn acc.2 w g) else acc) (rest, stamp)
        with hnext
      have hstamp1 : ∀ v, next.2 v = g ↔ stamp v = g ∨ v ∈ cc e := by
        intro v
        rw [hnext]
        exact floodFold_stamp g (cc e) (rest, stamp) v
      have hqueue1 : ∀ v, v ∈ next.1 ↔ v ∈ rest ∨ (v ∈ cc e ∧ stamp v ≠ g) := by
        intro v
        rw [hnext]
        exact floodFold_queue g (cc e) (rest, stamp) v
      have hH1' : ∀ p ∈ next.1, next.2 p = g := by
        intro p hp
        rcases (hqueue1 p).mp hp with hp | ⟨hp, _⟩
        · exact (hstamp1 p).mpr (Or.inl (hH1 p (List.mem_cons_of_mem e hp)))
        · exact (hstamp1 p).mpr (Or.inr hp)
      have hfuel' : 2 * unstamped g n next.2 + next.1.length ≤ m := by
        have hm := floodFold_measure g n (cc e) (rest, stamp) (fun w hw => hcc e w hw)
        rw [← hnext] at hm
        dsimp only at hm
        have hql : (e :: rest).length = rest.length + 1 := rfl
        omega
      by_cases hex : e ∈ q :: L
      · obtain ⟨V1, V2, hsplit, hni⟩ := mem_last_split hex
        have hviaE : ReachVia cc e V2 x := by
          cases V1 with
          | nil =>
            injection hsplit with h1 h2
            rw [← h1, ← h2]
            exact hvia
          | cons u V1' =>
            injection hsplit with h1 h2
            exact reachVia_suffix cc hvia V1' e V2 h2
        cases V2 with
        | nil =>
          cases hviaE
          exact floodLoop_mono g cc m next.1 next.2 x
            ((hstamp1 x).mpr (Or.inl (hH1 x (List.mem_cons_self x rest))))
        | cons w L2 =>
          have hw : w ∈ cc e ∧ ReachVia cc w L2 x := by
            cases hviaE with
            | cons hb hrest => exact ⟨hb, hrest⟩
          have hwe : w ≠ e := by
            intro h
            refine hni ?_
            rw [← h]
            exact List.mem_cons_self w L2
          have hniL2 : e ∉ L2 := fun h => hni (List.mem_cons_of_mem w h)
          have hwin : w ∈ q :: L := by
            rw [hsplit]
            exact List.mem_append_right V1
              (List.mem_cons_of_mem e (List.mem_cons_self w L2))
          have hL2in : ∀ v ∈ L2, v ∈ q :: L := by
            intro v hv
            rw [hsplit]
            exact List.mem_append_right V1
              (List.mem_cons_of_mem e (List.mem_cons_of_mem w hv))
          have hold : ∀ v, v ∈ q :: L → v ≠ e → stamp v = g → v ∈ next.1 := by
            intro v hvqL hvne hvst
            have hvq : v ∈ e :: rest := by
              rcases List.mem_cons.mp hvqL with rfl | hvL
              · exact hq
              · exact hcond v hvL hvst
            rcases List.mem_cons.mp hvq with rfl | hvrest
            · exact absurd rfl hvne
            · exact (hqueue1 v).mpr (Or.inl hvrest)
          have hwnext : w ∈ next.1 := by
            by_cases hst : stamp w = g
            · exact hold w hwin hwe hst
            · exact (hqueue1 w).mpr (Or.inr ⟨hw.1, hst⟩)
          have hcond' : ∀ v ∈ L2, next.2 v = g → v ∈ next.1 := by
            intro v hv hvst
            have hvne : v ≠ e := fun h => hniL2 (h ▸ hv)
            rcases (hstamp1 v).mp hvst with hvst | hvcc
            · exact hold v (hL2in v hv) hvne hvst
            · by_cases hst : stamp v = g
              · exact hold v (hL2in v hv) hvne hst
              · exact (hqueue1 v).mpr (Or.inr ⟨hvcc, hst⟩)
          exact ih next.1 next.2 hH1' hfuel' w L2 x hwnext hw.2 hcond'
      · have hqe : q ≠ e := by
          intro h
          refine hex ?_
          rw [← h]
          exact List.mem_cons_self q L
        have hqrest : q ∈ rest := by
          rcases List.mem_cons.mp hq with h | h
          · exact absurd h hqe
          · exact h
        have hcond' : ∀ v ∈ L, next.2 v = g → v ∈ next.1 := by
          intro v hv hvst
          have hvne : v ≠ e := fun h => hex (h ▸ List.mem_cons_of_mem q hv)
          rcases (hstamp1 v).mp hvst with hvst | hvcc
          · have hvq := hcond v hv hvst
            rcases List.mem_cons.mp hvq with h | h
            · exact absurd h hvne
            · exact (hqueue1 v).mpr (Or.inl h)
          · by_cases hst : stamp v = g
            · have hvq := hcond v hv hst
              rcases List.mem_cons.mp hvq with h | h
              · exact absurd h hvne
              · exact (hqueue1 v).mpr (Or.inl h)
            · exact (hqueue1 v).mpr (Or.inr ⟨hvcc, hst⟩)
        exact ih next.1 next.2 hH1' hfuel' q L x
          ((hqueue1 q).mpr (Or.inl hqrest)) hvia hcond'

theorem processSource_count (g : ℕ) (params : PropParams)
    (acc : ElecState × PointsState × List ElecEvent) (s : ℕ) :
    (processSource g params acc s).1.count = acc.1.count := by
  unfold processSource
  dsimp only
  repeat' split
  all_goals rfl

/-- The exact effect of one source iteration on the stamps and the
producing-current flag of the source, in the non-skipped case. -/
theorem processSource_eq_active (g : ℕ) (params : PropParams)
    (acc : ElecState × PointsState × List ElecEvent) (t : ℕ)
    (hdel : acc.1.isDeleted t = false)
    (hg : ¬ g = acc.1.currentConnectivityVisitSequenceNumber t) :
    (processSource g params acc t).1.currentConnectivityVisitSequenceNumber
      = (if evaluateGeneratorPreconditions acc.1 acc.2.1 t (acc.1.pointIndex t) then
          floodLoop g acc.1.conductingConnectedElectricalElements (2 * acc.1.count + 1) [t]
            (updFn acc.1.currentConnectivityVisitSequenceNumber t g)
        else updFn acc.1.currentConnectivityVisitSequenceNumber t g)
    ∧ (processSource g params acc t).1.generatorIsProducingCurrent t
      = evaluateGeneratorPreconditions acc.1 acc.2.1 t (acc.1.pointIndex t) := by
  unfold processSource
  dsimp only
  rw [if_neg (by rw [hdel]; simp), if_neg hg]
  simp only [evaluateGeneratorPreconditions_stamp]
  constructor
  · repeat' split
    all_goals rfl
  · by_cases hch : acc.1.generatorIsProducingCurrent t
        = evaluateGeneratorPreconditions acc.1 acc.2.1 t (acc.1.pointIndex t)
    · have hnch : ¬(acc.1.generatorIsProducingCurrent t
          ≠ evaluateGeneratorPreconditions acc.1 acc.2.1 t (acc.1.pointIndex t)) :=
        not_not_intro hch
      rw [if_neg hnch]
      repeat' split
      all_goals exact hch
    · rw [if_pos hch]
      repeat' split
      all_goals exact updFn_same _ _ _

/-- The source-loop invariant of `UpdateSourcesAndPropagation`: after
processing a prefix of the source list, the stamped elements are exactly
the non-deleted sources processed so far together with everything
conductively reachable from those of them that are producing current —
provided conducting edges stay inside the element count and no element is
reachable from two distinct sources. -/
theorem propagateFold_stamp_char (g : ℕ) (params : PropParams)
    (cc0 : ℕ → List ℕ) (del0 : ℕ → Bool) (n : ℕ) (srcs : List ℕ)
    (hcc : ∀ v w, w ∈ cc0 v → w < n)
    (hsep : ∀ s1 ∈ srcs, ∀ s2 ∈ srcs, ∀ v, Reach cc0 s1 v → Reach cc0 s2 v → s1 = s2) :
    ∀ (Q P : List ℕ) (acc : ElecState × PointsState × List ElecEvent),
      acc.1.conductingConnectedElectricalElements = cc0 →
      acc.1.isDeleted = del0 →
      acc.1.count = n →
      (∀ s ∈ P, s ∈ srcs) →
      (∀ s ∈ Q, s ∈ srcs) →
      (∀ y, acc.1.currentConnectivityVisitSequenceNumber y = g ↔
        (y ∈ P ∧ del0 y = false)
        ∨ ∃ s ∈ P, del0 s = false ∧ acc.1.generatorIsProducingCurrent s = true
            ∧ Reach cc0 s y) →
      ∀ y, (Q.foldl (processSource g params) acc).1.currentConnectivityVisitSequenceNumber y = g
        ↔ ((y ∈ P ++ Q ∧ del0 y = false)
          ∨ ∃ s ∈ P ++ Q, del0 s = false
              ∧ (Q.foldl (processSource g params) acc).1.generatorIsProducingCurrent s = true
              ∧ Reach cc0 s y) := by
  intro Q
  induction Q with
  | nil =>
    intro P acc _ _ _ _ _ hInv y
    rw [List.foldl_nil, List.append_nil]
    exact hInv y
  | cons t R ih =>
    intro P acc hccf hdelf hcnt hP hQ hInv y
    rw [List.foldl_cons]
    have htsrc : t ∈ srcs := hQ t (List.mem_cons_self t R)
    have hRsrc : ∀ s ∈ R, s ∈ srcs := fun s hs => hQ s (List.mem_cons_of_mem t hs)
    have hPt : ∀ s ∈ P ++ [t], s ∈ srcs := by
      intro s hs
      rcases List.mem_append.mp hs with hs | hs
      · exact hP s hs
      · rw [List.mem_singleton.mp hs]
        exact htsrc
    have hInv' : ∀ y, (processSource g params acc t).1.currentConnectivityVisitSequenceNumber y = g ↔
        (y ∈ P ++ [t] ∧ del0 y = false)
        ∨ ∃ s ∈ P ++ [t], del0 s = false
            ∧ (processSource g params acc t).1.generatorIsProducingCurrent s = true
            ∧ Reach cc0 s y := by
      by_cases hdelt : acc.1.isDeleted t = true
      · rw [processSource_noop g params acc t (Or.inl hdelt)]
        have hdelt0 : del0 t = true := by
          rw [← hdelf]
          exact hdelt
        intro y
        rw [hInv y]
        constructor
        · intro h
          rcases h with ⟨hy, hyd⟩ | ⟨s, hs, h1, h2, h3⟩
          · exact Or.inl ⟨List.mem_append_left _ hy, hyd⟩
          · exact Or.inr ⟨s, List.mem_append_left _ hs, h1, h2, h3⟩
        · intro h
          rcases h with ⟨hy, hyd⟩ | ⟨s, hs, h1, h2, h3⟩
          · rcases List.mem_append.mp hy with hy | hy
            · exact Or.inl ⟨hy, hyd⟩
            · rw [List.mem_singleton.mp hy, hdelt0] at hyd
              exact Bool.noConfusion hyd
          · rcases List.mem_append.mp hs with hs | hs
            · exact Or.inr ⟨s, hs, h1, h2, h3⟩
            · rw [List.mem_singleton.mp hs, hdelt0] at h1
              exact Bool.noConfusion h1
      · have hdelt' : acc.1.isDeleted t = false := by
          cases h : acc.1.isDeleted t with
          | true => exact absurd h hdelt
          | false => rfl
        have hdelt0 : del0 t = false := by
          rw [← hdelf]
          exact hdelt'
        by_cases hg : g = acc.1.currentConnectivityVisitSequenceNumber t
        · rw [processSource_noop g params acc t (Or.inr hg.symm)]
          have htP : t ∈ P := by
            rcases (hInv t).mp hg.symm with ⟨h1, _⟩ | ⟨s, hs, h1, h2, h3⟩
            · exact h1
            · have hst : s = t := hsep s (hP s hs) t htsrc t h3 (reach_refl cc0 t)
              rw [← hst]
              exact hs
          intro y
          rw [hInv y]
          constructor
          · intro h
            rcases h with ⟨hy, hyd⟩ | ⟨s, hs, h1, h2, h3⟩
            · exact Or.inl ⟨List.mem_append_left _ hy, hyd⟩
            · exact Or.inr ⟨s, List.mem_append_left _ hs, h1, h2, h3⟩
          · intro h
            rcases h with ⟨hy, hyd⟩ | ⟨s, hs, h1, h2, h3⟩
            · rcases List.mem_append.mp hy with hy | hy
              · exact Or.inl ⟨hy, hyd⟩
              · have hyt := List.mem_singleton.mp hy
                subst hyt
                exact Or.inl ⟨htP, hyd⟩
            · rcases List.mem_append.mp hs with hs | hs
              · exact Or.inr ⟨s, hs, h1, h2, h3⟩
              · have hst := List.mem_singleton.mp hs
                subst hst
                exact Or.inr ⟨s, htP, h1, h2, h3⟩
        · have heq := processSource_eq_active g params acc t hdelt' hg
          have hstampEq := heq.1
          have hflagT := heq.2
          have htP : t ∉ P := by
            intro htP
            have hstt : acc.1.currentConnectivityVisitSequenceNumber t = g :=
              (hInv t).mpr (Or.inl ⟨htP, hdelt0⟩)
            exact hg hstt.symm
          have hPmem : ∀ s ∈ P, s ≠ t := by
            intro s hs h
            exact htP (h ▸ hs)
          have hflagOther : ∀ s, s ≠ t →
              (processSource g params acc t).1.generatorIsProducingCurrent s
                = acc.1.generatorIsProducingCurrent s :=
            fun s hs => processSource_flag_other g params acc t s hs
          rw [hccf, hcnt] at hstampEq
          set st1 := updFn acc.1.currentConnectivityVisitSequenceNumber t g with hst1
          set pc := evaluateGeneratorPreconditions acc.1 acc.2.1 t (acc.1.pointIndex t)
            with hpc
          by_cases hpcv : pc = true
          · rw [hpcv] at hflagT
            rw [if_pos hpcv] at hstampEq
            intro y
            rw [hstampEq]
            constructor
            · intro h
              rcases floodLoop_sound g cc0 (2 * n + 1) [t] st1 y h with hst | ⟨q, hqm, hreach⟩
              · by_cases hyt : y = t
                · subst hyt
                  exact Or.inl ⟨List.mem_append_right P (List.mem_singleton.mpr rfl), hdelt0⟩
                · rw [hst1, updFn_other _ _ _ hyt] at hst
                  rcases (hInv y).mp hst with ⟨h1, h2⟩ | ⟨s, hs, h1, h2, h3⟩
                  · exact Or.inl ⟨List.mem_append_left _ h1, h2⟩
                  · refine Or.inr ⟨s, List.mem_append_left _ hs, h1, ?_, h3⟩
                    rw [hflagOther s (hPmem s hs)]
                    exact h2
              · have hqt := List.mem_singleton.mp hqm
                subst hqt
                exact Or.inr ⟨q, List.mem_append_right P (List.mem_singleton.mpr rfl),
                  hdelt0, hflagT, hreach⟩
            · intro h
              rcases h with ⟨hy, hyd⟩ | ⟨s, hs, h1, h2, h3⟩
              · rcases List.mem_append.mp hy with hy | hy
                · have hold := (hInv y).mpr (Or.inl ⟨hy, hyd⟩)
                  refine floodLoop_mono g cc0 _ _ _ y ?_
                  rw [hst1]
                  by_cases hyt : y = t
                  · rw [hyt]
                    exact updFn_same _ _ _
                  · rw [updFn_other _ _ _ hyt]
                    exact hold
                · have hyt := List.mem_singleton.mp hy
                  subst hyt
                  refine floodLoop_mono g cc0 _ _ _ y ?_
                  rw [hst1]
                  exact updFn_same _ _ _
              · rcases List.mem_append.mp hs with hs | hs
                · have h2' : acc.1.generatorIsProducingCurrent s = true := by
                    rw [← hflagOther s (hPmem s hs)]
                    exact h2
                  have hold := (hInv y).mpr (Or.inr ⟨s, hs, h1, h2', h3⟩)
                  refine floodLoop_mono g cc0 _ _ _ y ?_
                  rw [hst1]
                  by_cases hyt : y = t
                  · rw [hyt]
                    exact updFn_same _ _ _
                  · rw [updFn_other _ _ _ hyt]
                    exact hold
                · have hst' := List.mem_singleton.mp hs
                  subst hst'
                  obtain ⟨L, hvia⟩ := h3
                  obtain ⟨L', hvia', hnotin⟩ := reachVia_shortcut cc0 hvia
                  refine floodLoop_complete g cc0 n hcc (2 * n + 1) [s] st1 ?_ ?_ s L' y
                    (List.mem_singleton.mpr rfl) hvia' ?_
                  · intro p hp
                    rw [List.mem_singleton.mp hp, hst1]
                    exact updFn_same _ _ _
                  · simp only [List.length_singleton]
                    have hle := unstamped_le g n st1
                    omega
                  · intro v hv hvst
                    exfalso
                    have hvt : v ≠ s := by
                      intro h
                      exact hnotin (h ▸ hv)
                    rw [hst1, updFn_other _ _ _ hvt] at hvst
                    have hvreach : Reach cc0 s v := reachVia_mem cc0 hvia' v hv
                    rcases (hInv v).mp hvst with ⟨h1', _⟩ | ⟨s', hs', _, _, h3'⟩
                    · have heqv : v = s :=
                        hsep v (hP v h1') s htsrc v (reach_refl cc0 v) hvreach
                      exact hvt heqv
                    · have heqv : s' = s := hsep s' (hP s' hs') s htsrc v h3' hvreach
                      subst heqv
                      exact htP hs'
          · rw [if_neg hpcv] at hstampEq
            have hpcf : pc = false := by
              cases h : pc with
              | true => exact absurd h hpcv
              | false => rfl
            rw [hpcf] at hflagT
            intro y
            rw [hstampEq, hst1]
            constructor
            · intro h
              by_cases hyt : y = t
              · subst hyt
                exact Or.inl ⟨List.mem_append_right P (List.mem_singleton.mpr rfl), hdelt0⟩
              · rw [updFn_other _ _ _ hyt] at h
                rcases (hInv y).mp h with ⟨h1, h2⟩ | ⟨s, hs, h1, h2, h3⟩
                · exact Or.inl ⟨List.mem_append_left _ h1, h2⟩
                · refine Or.inr ⟨s, List.mem_append_left _ hs, h1, ?_, h3⟩
                  rw [hflagOther s (hPmem s hs)]
                  exact h2
            · intro h
              rcases h with ⟨hy, hyd⟩ | ⟨s, hs, h1, h2, h3⟩
              · rcases List.mem_append.mp hy with hy | hy
                · have hold := (hInv y).mpr (Or.inl ⟨hy, hyd⟩)
                  by_cases hyt : y = t
                  · rw [hyt]
                    exact updFn_same _ _ _
                  · rw [updFn_other _ _ _ hyt]
                    exact hold
                · rw [List.mem_singleton.mp hy]
                  exact updFn_same _ _ _
              · rcases List.mem_append.mp hs with hs | hs
                · have h2' : acc.1.generatorIsProducingCurrent s = true := by
                    rw [← hflagOther s (hPmem s hs)]
                    exact h2
                  have hold := (hInv y).mpr (Or.inr ⟨s, hs, h1, h2', h3⟩)
                  by_cases hyt : y = t
                  · rw [hyt]
                    exact updFn_same _ _ _
                  · rw [updFn_other _ _ _ hyt]
                    exact hold
                · have hst' := List.mem_singleton.mp hs
                  subst hst'
                  rw [hflagT] at h2
                  exact Bool.noConfusion h2
    have hres := ih (P ++ [t]) (processSource g params acc t)
      (by rw [processSource_cc]; exact hccf)
      (by rw [processSource_isDeleted]; exact hdelf)
      (by rw [processSource_count]; exact hcnt)
      hPt hRsrc hInv' y
    rw [List.append_assoc] at hres
    exact hres

/-- Counterexample to the original C1 claim: in the one-generator network
with a fully wet generator, the fresh generation 5 is written to the source
even though after the call no source is producing current, so "stamp = g"
is not equivalent to "conductively connected to a producing source". -/
theorem propagate_stamp_iff_counterexample :
    (∀ x, genElecStateNoInstance.currentConnectivityVisitSequenceNumber x ≠ 5)
    ∧ ¬ (∀ x,
        (updateSourcesAndPropagation 5 genElecStateNoInstance wetPts
            ⟨1, false⟩).1.currentConnectivityVisitSequenceNumber x = 5
          ↔ ∃ s ∈ (updateSourcesAndPropagation 5 genElecStateNoInstance wetPts
              ⟨1, false⟩).1.sources,
              (updateSourcesAndPropagation 5 genElecStateNoInstance wetPts
                ⟨1, false⟩).1.isDeleted s = false
              ∧ (updateSourcesAndPropagation 5 genElecStateNoInstance wetPts
                  ⟨1, false⟩).1.generatorIsProducingCurrent s = true
              ∧ Reach genElecStateNoInstance.conductingConnectedElectricalElements s x) := by
  constructor
  · intro x
    show (0 : ℕ) ≠ 5
    decide
  · intro h
    obtain ⟨s, hs, _, hprod, _⟩ := (h 0).mp (by decide)
    have hsrc : (updateSourcesAndPropagation 5 genElecStateNoInstance wetPts
        ⟨1, false⟩).1.sources = [0] := by decide
    rw [hsrc] at hs
    have hs0 : s = 0 := List.mem_singleton.mp hs
    rw [hs0] at hprod
    have hflag : (updateSourcesAndPropagation 5 genElecStateNoInstance wetPts
        ⟨1, false⟩).1.generatorIsProducingCurrent 0 = false := by decide
    rw [hflag] at hprod
    exact Bool.noConfusion hprod

/-- **C1 (amended).** After `UpdateSourcesAndPropagation` with a fresh
generation `g`, provided every conducting edge stays inside the element
count and no element is conductively reachable from two distinct sources,
an element's visit stamp equals `g` iff it is a non-deleted source (these
are stamped regardless of whether they produce) or it is connected, via a
path of conducting edges, to a non-deleted source that is producing
current this step. -/
theorem updateSourcesAndPropagation_stamp_char (g : ℕ) (st : ElecState)
    (pts : PointsState) (params : PropParams)
    (hfresh : ∀ x, st.currentConnectivityVisitSequenceNumber x ≠ g)
    (hcc : ∀ v w, w ∈ st.conductingConnectedElectricalElements v → w < st.count)
    (hsep : ∀ s1 ∈ st.sources, ∀ s2 ∈ st.sources, ∀ v,
      Reach st.conductingConnectedElectricalElements s1 v →
      Reach st.conductingConnectedElectricalElements s2 v → s1 = s2) :
    ∀ x, (updateSourcesAndPropagation g st pts
        params).1.currentConnectivityVisitSequenceNumber x = g
      ↔ ((x ∈ st.sources ∧ st.isDeleted x = false)
        ∨ ∃ s ∈ st.sources, st.isDeleted s = false
            ∧ (updateSourcesAndPropagation g st pts
                params).1.generatorIsProducingCurrent s = true
            ∧ Reach st.conductingConnectedElectricalElements s x) := by
  intro x
  have hres := propagateFold_stamp_char g params
    st.conductingConnectedElectricalElements st.isDeleted st.count st.sources hcc hsep
    st.sources [] (st, pts, []) rfl rfl rfl
    (fun s hs => absurd hs (List.not_mem_nil s)) (fun s hs => hs)
    (fun y => by
      constructor
      · intro h
        exact absurd h (hfresh y)
      · intro h
        rcases h with ⟨h1, _⟩ | ⟨s, hs, _⟩
        · exact absurd h1 (List.not_mem_nil y)
        · exact absurd hs (List.not_mem_nil s)) x
  exact hres

/-- Witness for C1: the amended characterization applied to the
one-generator network with dry particles at generation 7. -/
theorem updateSourcesAndPropagation_stamp_char_witness :
    (∀ x, genElecStateNoInstance.currentConnectivityVisitSequenceNumber x ≠ 7)
    ∧ ((updateSourcesAndPropagation 7 genElecStateNoInstance (mkWaterPts 0)
          ⟨1, false⟩).1.currentConnectivityVisitSequenceNumber 0 = 7
        ↔ ((0 ∈ genElecStateNoInstance.sources ∧ genElecStateNoInstance.isDeleted 0 = false)
          ∨ ∃ s ∈ genElecStateNoInstance.sources, genElecStateNoInstance.isDeleted s = false
              ∧ (updateSourcesAndPropagation 7 genElecStateNoInstance (mkWaterPts 0)
                  ⟨1, false⟩).1.generatorIsProducingCurrent s = true
              ∧ Reach genElecStateNoInstance.conductingConnectedElectricalElements s 0)) := by
  have hfresh : ∀ x, genElecStateNoInstance.currentConnectivityVisitSequenceNumber x ≠ 7 := by
    intro x
    show (0 : ℕ) ≠ 7
    decide
  refine ⟨hfresh, updateSourcesAndPropagation_stamp_char 7 genElecStateNoInstance
    (mkWaterPts 0) ⟨1, false⟩ hfresh ?_ ?_ 0⟩
  · intro v w hw
    exact absurd hw (List.not_mem_nil w)
  · intro s1 h1 s2 h2 v _ _
    have e1 : s1 = 0 := List.mem_singleton.mp h1
    have e2 : s2 = 0 := List.mem_singleton.mp h2
    rw [e1, e2]

/-- **C5.** The generation counter is never zero after an increment: for every
`SequenceNumber` `s`, `s.inc.mValue ≠ 0`; on unsigned wraparound
(`mValue = 2^32 - 1`) the counter skips zero and lands on `1`. -/
theorem sequenceNumber_inc_ne_zero :
    (∀ s : SequenceNumber, s.inc.mValue ≠ 0) ∧
      (SequenceNumber.inc ⟨2 ^ 32 - 1⟩).mValue = 1 := by
  constructor
  · intro s
    unfold SequenceNumber.inc
    dsimp only
    split
    · simp
    · next h => simpa using h
  · rfl

end FloatingSandbox
